import Mathlib

/-! # AY-3-8912 programmable sound generator (`vecx_psg.c`)

A shallow embedding of `src/vecx_psg.c` / `src/vecx_psg.h`.

* Machine integers are natural numbers.  Every wrapping increment or decrement and
  every narrowing store whose value a constant mask does not already bound carries
  its explicit `% 2^w`; a `uint8_t` argument is a natural number that the statements
  bound where it matters (`Op.ok`).
* The C arrays `reg[16]`, `tperiod[3]`, ... are functions on `Fin 16` / `Fin 3`,
  so an index outside the array is not expressible; the one place where the
  source indexes with a run-time byte (`psg.reg[psg.rlatch]`) and the lookups
  in the 16-entry `vtable` return `none` when the index is out of bounds.
* The file-level globals `psg`, `psgbuf`, `bufpos` are the record `ctx`.  The output
  buffer is caller-owned memory of unknown size: it is a function from sample offsets
  to samples, `none` while the pointer is `NULL`, and `vecx_psg_exec` fails on `NULL`.
* Functions that touch only `psg` take and return a `psg_t`; `vecx_psg_exec` and the
  buffer and snapshot functions work on `ctx`.
* `Op`, `step` and `run` describe a driver that issues a sequence of calls; a failed
  call (latch outside 0..15 on a write, table index outside `vtable`, no buffer)
  ends the run with `none`.
-/

namespace VecxPsg

/-- The struct `psg_t` of `vecx_psg.h`. -/
structure psg_t where
  /-- `uint8_t reg[16]` -/
  reg : Fin 16 → Nat
  /-- `uint8_t rlatch` -/
  rlatch : Nat
  /-- `uint16_t tperiod[3]` -/
  tperiod : Fin 3 → Nat
  /-- `uint16_t tcounter[3]` -/
  tcounter : Fin 3 → Nat
  /-- `uint8_t amplitude[3]` -/
  amplitude : Fin 3 → Nat
  /-- `uint8_t nperiod` -/
  nperiod : Nat
  /-- `uint16_t ncounter` -/
  ncounter : Nat
  /-- `uint32_t nshift` -/
  nshift : Nat
  /-- `uint16_t eperiod` -/
  eperiod : Nat
  /-- `uint16_t ecounter` -/
  ecounter : Nat
  /-- `uint8_t eseg` -/
  eseg : Nat
  /-- `uint8_t estep` -/
  estep : Nat
  /-- `uint8_t evol` -/
  evol : Nat
  /-- `uint8_t tdisable[3]` -/
  tdisable : Fin 3 → Nat
  /-- `uint8_t ndisable[3]` -/
  ndisable : Fin 3 → Nat
  /-- `uint8_t emode[3]` -/
  emode : Fin 3 → Nat
  /-- `uint8_t sign[3]` -/
  sign : Fin 3 → Nat

/-- The volume table `vtable[16]`. -/
def vtable : List Int :=
  [0, 40, 60, 86, 124, 186, 264, 440, 518, 840, 1196, 1526, 2016, 2602, 3300, 4096]

/-- The "don't care" masks `dcmask[16]` of `vecx_psg_wr`. -/
def dcmask_list : List Nat :=
  [0xff, 0x0f, 0xff, 0x0f, 0xff, 0x0f, 0x1f, 0xff,
   0x1f, 0x1f, 0x1f, 0xff, 0xff, 0x0f, 0xff, 0xff]

/-- The mask `dcmask[r]` for an in-range register index. -/
def dcmask (r : Fin 16) : Nat := dcmask_list.getD r.val 0

/-- The file-level globals: the chip, the output buffer pointer (`none` is the
`NULL` it starts as, `some b` a caller-owned array of samples) and the write
cursor. -/
structure ctx where
  psg : psg_t
  psgbuf : Option (Nat → Int)
  bufpos : Nat

/-- The value of the zero-initialised `static psg_t psg` at program start. -/
def psg_static : psg_t :=
  { reg := fun _ => 0, rlatch := 0, tperiod := fun _ => 0, tcounter := fun _ => 0,
    amplitude := fun _ => 0, nperiod := 0, ncounter := 0, nshift := 0, eperiod := 0,
    ecounter := 0, eseg := 0, estep := 0, evol := 0, tdisable := fun _ => 0,
    ndisable := fun _ => 0, emode := fun _ => 0, sign := fun _ => 0 }

/-- The function `vecx_psg_env_reset`: restart the step counter and pick the
start volume from the segment and the shape in `reg[13]`. -/
def vecx_psg_env_reset (s : psg_t) : psg_t :=
  let s := { s with estep := 0 }
  if s.eseg ≠ 0 then
    match s.reg 13 with
    | 8 | 11 | 13 | 14 => { s with evol := 15 }
    | _ => { s with evol := 0 }
  else
    { s with evol := if s.reg 13 &&& 0x04 ≠ 0 then 0 else 15 }

/-- The function `vecx_psg_set_buffer`. -/
def vecx_psg_set_buffer (c : ctx) (ptr : Option (Nat → Int)) : ctx :=
  { c with psgbuf := ptr }

/-- The function `vecx_psg_reset_buffer`. -/
def vecx_psg_reset_buffer (c : ctx) : ctx :=
  { c with bufpos := 0 }

/-- The function `vecx_psg_init`: every field is assigned, so the result does not
depend on the prior state. -/
def vecx_psg_init (_s : psg_t) : psg_t :=
  { reg := Function.update (fun _ => 0x00) 14 0xff
    rlatch := 0x00
    tperiod := fun _ => 0x0000
    tcounter := fun _ => 0x0000
    amplitude := fun _ => 0x00
    sign := fun _ => 0x00
    nperiod := 0x00
    ncounter := 0x0000
    nshift := 1
    eperiod := 0x0000
    ecounter := 0x0000
    eseg := 0x00
    estep := 0x00
    evol := 0x00
    tdisable := fun _ => 0x00
    ndisable := fun _ => 0x00
    emode := fun _ => 0x00 }

/-- The function `vecx_psg_rd`: `psg.reg[psg.rlatch]`. -/
def vecx_psg_rd (s : psg_t) : Option Nat :=
  if h : s.rlatch < 16 then some (s.reg ⟨s.rlatch, h⟩) else none

/-- Recompute `tperiod[i]` from the register pair `lo`, `hi` with the clamp 0 → 1. -/
def set_tperiod (s : psg_t) (i : Fin 3) (lo hi : Fin 16) : psg_t :=
  let p := (s.reg lo ||| (s.reg hi <<< 8)) % 65536
  { s with tperiod := Function.update s.tperiod i (if p = 0 then 1 else p) }

/-- The `switch (psg.rlatch)` of `vecx_psg_wr`, after the masked store. -/
def wr_derive (s : psg_t) (data : Nat) : psg_t :=
  match s.rlatch with
  | 0 | 1 => set_tperiod s 0 0 1
  | 2 | 3 => set_tperiod s 1 2 3
  | 4 | 5 => set_tperiod s 2 4 5
  | 6 =>
    let s := { s with nperiod := s.reg 6 }
    if s.nperiod = 0 then { s with nperiod := 1 } else s
  | 7 =>
    { s with
      tdisable := fun i => (s.reg 7 >>> i.val) &&& 0x01
      ndisable := fun i => (s.reg 7 >>> (3 + i.val)) &&& 0x01 }
  | 8 =>
    { s with
      amplitude := Function.update s.amplitude 0 (data &&& 0x0f)
      emode := Function.update s.emode 0 ((data >>> 4) &&& 0x01) }
  | 9 =>
    { s with
      amplitude := Function.update s.amplitude 1 (data &&& 0x0f)
      emode := Function.update s.emode 1 ((data >>> 4) &&& 0x01) }
  | 10 =>
    { s with
      amplitude := Function.update s.amplitude 2 (data &&& 0x0f)
      emode := Function.update s.emode 2 ((data >>> 4) &&& 0x01) }
  | 11 | 12 =>
    { s with eperiod := (s.reg 11 ||| (s.reg 12 <<< 8)) % 65536 }
  | 13 =>
    vecx_psg_env_reset { s with ecounter := 0, eseg := 0 }
  | _ => s

/-- The masked store `psg.reg[r] = data & dcmask[r]` of `vecx_psg_wr`. -/
def store_reg (s : psg_t) (r : Fin 16) (data : Nat) : psg_t :=
  { s with reg := Function.update s.reg r (data &&& dcmask r) }

/-- The function `vecx_psg_wr`: store `data & dcmask[rlatch]` in the latched
register, then derive the cached fields. -/
def vecx_psg_wr (s : psg_t) (data : Nat) : Option psg_t :=
  if h : s.rlatch < 16 then some (wr_derive (store_reg s ⟨s.rlatch, h⟩ data) data)
  else none

/-- The function `vecx_psg_io_wr`. -/
def vecx_psg_io_wr (s : psg_t) (data : Nat) : psg_t :=
  { s with reg := Function.update s.reg 14 data }

/-- The function `vecx_psg_get_reg`. -/
def vecx_psg_get_reg (s : psg_t) : Nat := s.rlatch

/-- The function `vecx_psg_set_reg`. -/
def vecx_psg_set_reg (s : psg_t) (r : Nat) : psg_t :=
  { s with rlatch := r }

/-- One pass of the tone loop of `vecx_psg_exec` for channel `i`. -/
def clock_tone (s : psg_t) (i : Fin 3) : psg_t :=
  let s := { s with tcounter := Function.update s.tcounter i ((s.tcounter i + 1) % 65536) }
  if s.tcounter i ≥ s.tperiod i then
    { s with
      tcounter := Function.update s.tcounter i 0
      sign := Function.update s.sign i (s.sign i ^^^ 1) }
  else s

/-- The noise counter block of `vecx_psg_exec`. -/
def clock_noise (s : psg_t) : psg_t :=
  let s := { s with ncounter := (s.ncounter + 1) % 65536 }
  if s.ncounter ≥ s.nperiod <<< 1 then
    { s with
      ncounter := 0
      nshift := (s.nshift >>> 1) ||| (((s.nshift ^^^ (s.nshift >>> 3)) &&& 0x01) <<< 16) }
  else s

/-- The volume change of one envelope step (skipped on step 0). -/
def envelope_volume (s : psg_t) : psg_t :=
  if s.estep ≠ 0 then
    if s.eseg ≠ 0 then
      if s.reg 13 = 10 ∨ s.reg 13 = 12 then { s with evol := (s.evol + 1) % 256 }
      else if s.reg 13 = 8 ∨ s.reg 13 = 14 then { s with evol := (s.evol + 255) % 256 }
      else s
    else
      if s.reg 13 &&& 0x04 ≠ 0 then { s with evol := (s.evol + 1) % 256 }
      else { s with evol := (s.evol + 255) % 256 }
  else s

/-- The body run on an envelope counter rollover: reset the counter, step the
volume, advance the step and start the next segment after the 16th step. -/
def envelope_rollover (s : psg_t) : psg_t :=
  let s := envelope_volume { s with ecounter := 0 }
  let s := { s with estep := (s.estep + 1) % 256 }
  if s.estep ≥ 16 then
    let s :=
      if s.reg 13 &&& 0x09 = 0x08 then { s with eseg := s.eseg ^^^ 1 }
      else { s with eseg := 1 }
    vecx_psg_env_reset s
  else s

/-- Whether the next `vecx_psg_exec` rolls the envelope counter over:
`++psg.ecounter >= (psg.eperiod << 1)`. -/
def envelope_due (s : psg_t) : Bool :=
  decide ((s.ecounter + 1) % 65536 ≥ s.eperiod <<< 1)

/-- The envelope counter block of `vecx_psg_exec`. -/
def clock_envelope (s : psg_t) : psg_t :=
  if envelope_due s then envelope_rollover { s with ecounter := (s.ecounter + 1) % 65536 }
  else { s with ecounter := (s.ecounter + 1) % 65536 }

/-- The chip state after the tone, noise and envelope blocks of `vecx_psg_exec`. -/
def clock (s : psg_t) : psg_t :=
  clock_envelope (clock_noise (([0, 1, 2] : List (Fin 3)).foldl clock_tone s))

/-- Conversion of an `int` to `int16_t`. -/
def int16 (x : Int) : Int := (x + 32768) % 65536 - 32768

/-- One pass of the mixing loop of `vecx_psg_exec`: `none` when the table index
is outside `vtable`. -/
def mix_channel (s : psg_t) (vol : Int) (i : Fin 3) : Option Int :=
  let out := ((s.tdisable i ||| s.sign i) &&& (s.ndisable i ||| (s.nshift &&& 0x01))) % 256
  if out ≠ 0 then
    (vtable[if s.emode i ≠ 0 then s.evol else s.amplitude i]?).map fun x => int16 (vol + x)
  else some vol

/-- The mixing loop of `vecx_psg_exec`, from `vol = 0`. -/
def mix (s : psg_t) : Option Int :=
  ([0, 1, 2] : List (Fin 3)).foldlM (mix_channel s) 0

/-- The function `vecx_psg_exec`: clock the chip, store the mixed sample at the
cursor, advance the cursor and return 1. -/
def vecx_psg_exec (c : ctx) : Option (ctx × Nat) :=
  let p := clock c.psg
  match mix p, c.psgbuf with
  | some vol, some buf =>
    some ({ psg := p, psgbuf := some (Function.update buf c.bufpos vol),
            bufpos := c.bufpos + 1 }, 1)
  | _, _ => none

/-- The function `vecx_psg_state_load`: `psg = *st_psg`. -/
def vecx_psg_state_load (c : ctx) (st_psg : psg_t) : ctx :=
  { c with psg := st_psg }

/-- The function `vecx_psg_state_save`: the value stored in `*st_psg`. -/
def vecx_psg_state_save (c : ctx) : psg_t := c.psg

/-- The chip after `n` successive calls of `vecx_psg_exec`, with the samples the
calls stored at the cursor, oldest first; `none` once a call fails. -/
def exec_samples : Nat → ctx → Option (List Int × ctx)
  | 0, c => some ([], c)
  | n + 1, c =>
    match vecx_psg_exec c with
    | none => none
    | some (c1, _) =>
      match c1.psgbuf with
      | none => none
      | some buf => (exec_samples n c1).map fun r => (buf c.bufpos :: r.1, r.2)

/-- The samples mixed by `n` successive chip cycles from state `s`. -/
def mix_run : Nat → psg_t → Option (List Int)
  | 0, _ => some []
  | n + 1, s => (mix (clock s)).bind fun v => (mix_run n (clock s)).map fun l => v :: l

/-- One call of the driver interface: `vecx_psg_set_reg (r)`, `vecx_psg_wr (data)`,
`vecx_psg_io_wr (data)` or `vecx_psg_exec ()`. -/
inductive Op where
  | set_reg (r : Nat)
  | wr (data : Nat)
  | io_wr (data : Nat)
  | exec
  deriving DecidableEq

/-- The argument of the call is a byte, and a register index is in 0..15. -/
def Op.ok : Op → Bool
  | Op.set_reg r => decide (r < 16)
  | Op.wr data => decide (data < 256)
  | Op.io_wr data => decide (data < 256)
  | Op.exec => true

/-- The globals after one call; `none` when the call fails. -/
def step (c : ctx) : Op → Option ctx
  | Op.set_reg r => some { c with psg := vecx_psg_set_reg c.psg r }
  | Op.wr data => (vecx_psg_wr c.psg data).map fun s => { c with psg := s }
  | Op.io_wr data => some { c with psg := vecx_psg_io_wr c.psg data }
  | Op.exec => (vecx_psg_exec c).map fun r => r.1

/-- The globals after a sequence of calls, first call first. -/
def run : List Op → ctx → Option ctx
  | [], c => some c
  | op :: ops, c => (step c op).bind (run ops)

/-- The registers written through `vecx_psg_wr` by a sequence of calls that starts
with latch `l`, in order. -/
def written_regs : List Op → Nat → List Nat
  | [], _ => []
  | Op.set_reg r :: ops, _ => written_regs ops r
  | Op.wr _ :: ops, l => l :: written_regs ops l
  | Op.io_wr _ :: ops, l => written_regs ops l
  | Op.exec :: ops, l => written_regs ops l

/-- The number of calls of `vecx_psg_exec` in a sequence of calls from `c` on which
the envelope counter rolled over. -/
def rollovers : List Op → ctx → Nat
  | [], _ => 0
  | op :: ops, c =>
    match step c op with
    | none => 0
    | some c1 =>
      (if op = Op.exec ∧ envelope_due c.psg = true then 1 else 0) + rollovers ops c1

/-! ## Derived notions used in the statements -/

/-- The low period register of tone channel `i`. -/
def tone_lo (i : Fin 3) : Fin 16 := ⟨2 * i.val, by omega⟩

/-- The high period register of tone channel `i`. -/
def tone_hi (i : Fin 3) : Fin 16 := ⟨2 * i.val + 1, by omega⟩

/-- The clamped period `low | (high << 8)` of channel `i` from the stored registers. -/
def tone_period_of (s : psg_t) (i : Fin 3) : Nat :=
  if (s.reg (tone_lo i) ||| (s.reg (tone_hi i) <<< 8)) % 65536 = 0 then 1
  else (s.reg (tone_lo i) ||| (s.reg (tone_hi i) <<< 8)) % 65536

/-- The ranges the stored registers and the derived periods are kept in. -/
def period_inv (s : psg_t) : Prop :=
  (∀ r, s.reg r ≤ dcmask r) ∧ (∀ i, s.tperiod i ≤ 4095) ∧ s.nperiod ≤ 31

/-- What one call does to the latch. -/
def latch_after (l : Nat) : Op → Nat
  | Op.set_reg r => r
  | _ => l

/-- The segment after `k` envelope steps from a write of `shape` to register 13. -/
def eseg_after (shape k : Nat) : Nat :=
  if shape = 8 ∨ shape = 10 ∨ shape = 12 ∨ shape = 14 then (k / 16) % 2
  else if k < 16 then 0 else 1

/-- The envelope position `k` steps after a write of `shape` to register 13. -/
def env_at (s : psg_t) (shape k : Nat) : Prop :=
  s.reg 13 = shape ∧ s.estep = k % 16 ∧ s.eseg = eseg_after shape k

/-- The shift-register update of `vecx_psg_exec`:
`(nshift >> 1) | (((nshift ^ (nshift >> 3)) & 0x01) << 16)`. -/
def noise_shift (x : Nat) : Nat :=
  (x >>> 1) ||| (((x ^^^ (x >>> 3)) &&& 0x01) <<< 16)

/-- The amplitude register of channel `i` (register 8, 9 or 10). -/
def amp_reg (i : Fin 3) : Fin 16 := ⟨8 + i.val, by omega⟩

/-- The cached flags agree with the registers they are derived from. -/
def flags_inv (s : psg_t) : Prop :=
  (∀ i : Fin 3,
    s.tdisable i = (s.reg 7 >>> i.val) &&& 1 ∧
    s.ndisable i = (s.reg 7 >>> (3 + i.val)) &&& 1 ∧
    s.amplitude i = s.reg (amp_reg i) &&& 0x0f ∧
    s.emode i = (s.reg (amp_reg i) >>> 4) &&& 1) ∧
  s.eperiod = s.reg 11 ||| (s.reg 12 <<< 8)

/-- The envelope volume the code holds at step `e` of segment `seg` under `shape`,
when the segment was entered through `vecx_psg_env_reset`. -/
def evol_at (shape seg e : Nat) : Nat :=
  if seg = 0 then
    if shape &&& 0x04 ≠ 0 then e - 1 else if e = 0 then 15 else 16 - e
  else if shape = 10 ∨ shape = 12 then e - 1
  else if shape = 8 ∨ shape = 14 then (if e = 0 then 15 else 16 - e)
  else if shape = 11 ∨ shape = 13 then 15
  else 0

/-- The envelope fields are in step with the shape register, as they are from a
register-13 write on. -/
def env_wf (s : psg_t) : Prop :=
  s.reg 13 ≤ 15 ∧ s.eseg ≤ 1 ∧ s.estep ≤ 15 ∧ s.evol = evol_at (s.reg 13) s.eseg s.estep

/-- The gate byte `out` of channel `i` in the mixing loop of `vecx_psg_exec`. -/
def chan_out (s : psg_t) (i : Fin 3) : Nat :=
  ((s.tdisable i ||| s.sign i) &&& (s.ndisable i ||| (s.nshift &&& 0x01))) % 256

/-- The index into `vtable` the mixing loop uses for channel `i`. -/
def chan_index (s : psg_t) (i : Fin 3) : Nat :=
  if s.emode i ≠ 0 then s.evol else s.amplitude i

/-! ## Register file -/

theorem wr_derive_reg (s : psg_t) (data : Nat) : (wr_derive s data).reg = s.reg := by
  unfold wr_derive
  split <;> simp only [set_tperiod, vecx_psg_env_reset] <;> (repeat' split) <;> rfl

theorem wr_derive_rlatch (s : psg_t) (data : Nat) : (wr_derive s data).rlatch = s.rlatch := by
  unfold wr_derive
  split <;> simp only [set_tperiod, vecx_psg_env_reset] <;> (repeat' split) <;> rfl

/-- The result of a write through an in-range latch. -/
theorem vecx_psg_wr_eq (s : psg_t) (data : Nat) (h : s.rlatch < 16) :
    vecx_psg_wr s data = some (wr_derive (store_reg s ⟨s.rlatch, h⟩ data) data) := by
  simp [vecx_psg_wr, h]

/-- C1: for every register index `r` in 0..15 and every value `v`, from any state,
selecting `r`, writing `v` and reading back returns `v AND dcmask[r]` for the
mask table `0xff,0x0f,0xff,0x0f,0xff,0x0f,0x1f,0xff,0x1f,0x1f,0x1f,0xff,0xff,0x0f,0xff,0xff`. -/
theorem C1_write_then_read (s : psg_t) (r v : Nat) (hr : r < 16) :
    (vecx_psg_wr (vecx_psg_set_reg s r) v).bind vecx_psg_rd =
      some (v &&& [0xff, 0x0f, 0xff, 0x0f, 0xff, 0x0f, 0x1f, 0xff,
                   0x1f, 0x1f, 0x1f, 0xff, 0xff, 0x0f, 0xff, 0xff].getD r 0) := by
  have hl : (vecx_psg_set_reg s r).rlatch = r := rfl
  rw [vecx_psg_wr_eq _ _ (by rw [hl]; exact hr)]
  simp only [Option.some_bind, vecx_psg_rd, wr_derive_rlatch, wr_derive_reg]
  simp [hl, hr, dcmask, dcmask_list, store_reg]

theorem C1_write_then_read_witness :
    (vecx_psg_wr (vecx_psg_set_reg psg_static 6) 0xff).bind
      vecx_psg_rd = some (0xff &&& [0xff, 0x0f, 0xff, 0x0f, 0xff, 0x0f, 0x1f, 0xff,
                   0x1f, 0x1f, 0x1f, 0xff, 0xff, 0x0f, 0xff, 0xff].getD 6 0) :=
  C1_write_then_read _ 6 0xff (by decide)

/-- C2: after `vecx_psg_init`, from any prior state, selecting a register `r` in 0..15
and reading returns 0xFF for `r = 14` and 0x00 otherwise, the noise shift register
is 1 and every other field (latch, periods, counters, amplitudes, sign, segment,
step, volume, disable and mode flags) is 0. -/
theorem C2_init_state (s0 : psg_t) :
    (∀ r : Fin 16, vecx_psg_rd (vecx_psg_set_reg (vecx_psg_init s0) r.val) =
      some (if r.val = 14 then 0xff else 0x00)) ∧
    (vecx_psg_init s0).nshift = 1 ∧
    (vecx_psg_init s0).rlatch = 0 ∧
    (∀ i, (vecx_psg_init s0).tperiod i = 0 ∧ (vecx_psg_init s0).tcounter i = 0 ∧
      (vecx_psg_init s0).amplitude i = 0 ∧ (vecx_psg_init s0).sign i = 0 ∧
      (vecx_psg_init s0).tdisable i = 0 ∧ (vecx_psg_init s0).ndisable i = 0 ∧
      (vecx_psg_init s0).emode i = 0) ∧
    (vecx_psg_init s0).nperiod = 0 ∧ (vecx_psg_init s0).ncounter = 0 ∧
    (vecx_psg_init s0).eperiod = 0 ∧ (vecx_psg_init s0).ecounter = 0 ∧
    (vecx_psg_init s0).eseg = 0 ∧ (vecx_psg_init s0).estep = 0 ∧
    (vecx_psg_init s0).evol = 0 := by
  refine ⟨?_, rfl, rfl, fun i => ⟨rfl, rfl, rfl, rfl, rfl, rfl, rfl⟩,
    rfl, rfl, rfl, rfl, rfl, rfl, rfl⟩
  intro r
  fin_cases r <;> rfl

/-! ## Execution -/

theorem vecx_psg_exec_some (s : psg_t) (b : Nat → Int) (p : Nat) (v : Int)
    (h : mix (clock s) = some v) :
    vecx_psg_exec ⟨s, some b, p⟩ = some (⟨clock s, some (Function.update b p v), p + 1⟩, 1) := by
  simp [vecx_psg_exec, h]

theorem vecx_psg_exec_none (s : psg_t) (b : Nat → Int) (p : Nat)
    (h : mix (clock s) = none) : vecx_psg_exec ⟨s, some b, p⟩ = none := by
  simp [vecx_psg_exec, h]

/-- With a buffer installed, the samples and the final chip state of `n` calls of
`vecx_psg_exec` are those of `n` chip cycles, whatever the buffer and cursor. -/
theorem exec_samples_eq (n : Nat) (s : psg_t) (b : Nat → Int) (p : Nat) :
    (exec_samples n ⟨s, some b, p⟩).map (fun r => (r.1, r.2.psg)) =
      (mix_run n s).map fun l => (l, clock^[n] s) := by
  induction n generalizing s b p with
  | zero => simp [exec_samples, mix_run]
  | succ n ih =>
    cases h : mix (clock s) with
    | none => simp [exec_samples, mix_run, vecx_psg_exec_none _ _ _ h, h]
    | some v =>
      have := ih (clock s) (Function.update b p v) (p + 1)
      simp only [exec_samples, mix_run, vecx_psg_exec_some _ _ _ _ h, h, Option.some_bind,
        Function.update_same, Option.map_map, Function.iterate_succ, Function.comp_apply]
      cases h1 : exec_samples n ⟨clock s, some (Function.update b p v), p + 1⟩ <;>
        cases h2 : mix_run n (clock s) <;> simp_all

/-- C3: saving the chip into a snapshot and loading that snapshot gives back the same
globals, and `n` calls of `vecx_psg_exec` after loading the snapshot (into any chip,
with any output buffer and cursor) yield the same samples and the same final chip
state as `n` calls from the original state. -/
theorem C3_save_load_exec (s s1 : psg_t) (b b1 : Nat → Int) (p p1 n : Nat) :
    vecx_psg_state_load ⟨s, some b, p⟩ (vecx_psg_state_save ⟨s, some b, p⟩) = ⟨s, some b, p⟩ ∧
    exec_samples n (vecx_psg_state_load ⟨s, some b, p⟩ (vecx_psg_state_save ⟨s, some b, p⟩)) =
      exec_samples n ⟨s, some b, p⟩ ∧
    (exec_samples n
        (vecx_psg_state_load ⟨s1, some b1, p1⟩ (vecx_psg_state_save ⟨s, some b, p⟩))).map
        (fun r => (r.1, r.2.psg)) =
      (exec_samples n ⟨s, some b, p⟩).map (fun r => (r.1, r.2.psg)) := by
  refine ⟨rfl, rfl, ?_⟩
  show (exec_samples n ⟨s, some b1, p1⟩).map _ = _
  rw [exec_samples_eq, exec_samples_eq]

/-- The samples of `n` calls of `vecx_psg_exec` paired with the phase of channel `i`
after the last call. -/
theorem exec_samples_sign (n : Nat) (s : psg_t) (b : Nat → Int) (p : Nat) (i : Fin 3) :
    (exec_samples n ⟨s, some b, p⟩).map (fun r => (r.1, r.2.psg.sign i)) =
      (mix_run n s).map fun l => (l, (clock^[n] s).sign i) := by
  have h := congrArg (Option.map fun r : List Int × psg_t => (r.1, r.2.sign i))
    (exec_samples_eq n s b p)
  simpa [Option.map_map, Function.comp_def] using h

/-- C4: after `vecx_psg_init`, select 7 / write 0x3E, select 8 / write 0x0F,
select 0 / write 4, select 1 / write 0, the first eight calls of `vecx_psg_exec`
store the samples 0, 0, 0, 4096, 4096, 4096, 4096, 0: after each call the sample is
4096 when the phase bit of channel A is 1 and 0 when it is 0, and the phase flips
every 4 calls.  Entry `k` of the list is the samples of the first `k + 1` calls with
the phase bit after call `k + 1`. -/
theorem C4_square_wave (s0 : psg_t) (b : Nat → Int) (p : Nat) :
    ((vecx_psg_wr (vecx_psg_set_reg (vecx_psg_init s0) 7) 0x3E).bind fun s =>
      (vecx_psg_wr (vecx_psg_set_reg s 8) 0x0F).bind fun s =>
      (vecx_psg_wr (vecx_psg_set_reg s 0) 4).bind fun s =>
      (vecx_psg_wr (vecx_psg_set_reg s 1) 0).bind fun s =>
      some ((List.range 8).map fun k =>
        (exec_samples (k + 1) ⟨s, some b, p⟩).map fun r => (r.1, r.2.psg.sign 0))) =
    some [some ([0], 0), some ([0, 0], 0), some ([0, 0, 0], 0),
      some ([0, 0, 0, 4096], 1), some ([0, 0, 0, 4096, 4096], 1),
      some ([0, 0, 0, 4096, 4096, 4096], 1), some ([0, 0, 0, 4096, 4096, 4096, 4096], 1),
      some ([0, 0, 0, 4096, 4096, 4096, 4096, 0], 0)] := by
  simp only [exec_samples_sign]
  show ((vecx_psg_wr (vecx_psg_set_reg (vecx_psg_init psg_static) 7) 0x3E).bind _) = _
  decide

/-! ## Tone and noise periods -/

theorem or_shl8_lt (a b : Nat) (ha : a < 256) (hb : b < 256) : a ||| (b <<< 8) < 65536 := by
  have h1 : a < 2 ^ 16 := by omega
  have h2 : b <<< 8 < 2 ^ 16 := by rw [Nat.shiftLeft_eq]; omega
  exact Nat.or_lt_two_pow h1 h2

theorem or_shl8_lt_4096 (a b : Nat) (ha : a < 256) (hb : b ≤ 15) : a ||| (b <<< 8) < 4096 := by
  have h1 : a < 2 ^ 12 := by omega
  have h2 : b <<< 8 < 2 ^ 12 := by rw [Nat.shiftLeft_eq]; omega
  exact Nat.or_lt_two_pow h1 h2

theorem wr_derive_tone (s : psg_t) (i : Fin 3) (v : Nat)
    (hr : s.rlatch = 2 * i.val ∨ s.rlatch = 2 * i.val + 1) :
    wr_derive s v = set_tperiod s i (tone_lo i) (tone_hi i) := by
  unfold wr_derive
  fin_cases i <;> rcases hr with h | h <;> simp at h <;> rw [h] <;> rfl

/-- The period of channel `i` after a write to one of its two period registers. -/
theorem wr_tperiod (s : psg_t) (i : Fin 3) (v : Nat) (hs : ∀ k, s.reg k < 256)
    (hr : s.rlatch = 2 * i.val ∨ s.rlatch = 2 * i.val + 1) :
    ∃ s1, vecx_psg_wr s v = some s1 ∧ s1.rlatch = s.rlatch ∧
      (∀ k, s1.reg k < 256) ∧
      s1.tperiod i =
        (if s1.reg (tone_lo i) ||| (s1.reg (tone_hi i) <<< 8) = 0 then 1
         else s1.reg (tone_lo i) ||| (s1.reg (tone_hi i) <<< 8)) := by
  have hlt : s.rlatch < 16 := by omega
  have hk : ∀ k, (store_reg s ⟨s.rlatch, hlt⟩ v).reg k < 256 := by
    intro k
    show (Function.update s.reg ⟨s.rlatch, hlt⟩ (v &&& dcmask ⟨s.rlatch, hlt⟩)) k < 256
    by_cases hk : k = ⟨s.rlatch, hlt⟩
    · rw [hk, Function.update_same]
      have : dcmask ⟨s.rlatch, hlt⟩ ≤ 255 := by
        generalize (⟨s.rlatch, hlt⟩ : Fin 16) = r
        revert r; decide
      exact Nat.lt_of_le_of_lt Nat.and_le_right (by omega)
    · rw [Function.update_noteq hk]; exact hs k
  have hd := wr_derive_tone (store_reg s ⟨s.rlatch, hlt⟩ v) i v hr
  refine ⟨_, (vecx_psg_wr_eq s v hlt).trans (congrArg some hd), rfl, hk, ?_⟩
  simp only [set_tperiod, Function.update_same,
    Nat.mod_eq_of_lt (or_shl8_lt _ _ (hk (tone_lo i)) (hk (tone_hi i)))]

/-- The register file after a write: only the latched register changes, to the
masked value. -/
theorem vecx_psg_wr_reg (s s1 : psg_t) (v : Nat) (h : s.rlatch < 16)
    (hw : vecx_psg_wr s v = some s1) :
    s1.reg = Function.update s.reg ⟨s.rlatch, h⟩ (v &&& dcmask ⟨s.rlatch, h⟩) := by
  rw [vecx_psg_wr_eq s v h] at hw
  rw [← Option.some.inj hw, wr_derive_reg]
  rfl

/-- Writing 0 to both period registers of channel `i`, low register first. -/
theorem wr_pair_zero_lo_hi (s : psg_t) (i : Fin 3) :
    ((vecx_psg_wr (vecx_psg_set_reg s (2 * i.val)) 0).bind fun s1 =>
      (vecx_psg_wr (vecx_psg_set_reg s1 (2 * i.val + 1)) 0).map fun s2 => s2.tperiod i)
      = some 1 := by
  fin_cases i <;>
    simp [vecx_psg_wr, vecx_psg_set_reg, wr_derive, set_tperiod, dcmask, dcmask_list,
      Function.update, store_reg]

/-- Writing 0 to both period registers of channel `i`, high register first. -/
theorem wr_pair_zero_hi_lo (s : psg_t) (i : Fin 3) :
    ((vecx_psg_wr (vecx_psg_set_reg s (2 * i.val + 1)) 0).bind fun s1 =>
      (vecx_psg_wr (vecx_psg_set_reg s1 (2 * i.val)) 0).map fun s2 => s2.tperiod i)
      = some 1 := by
  fin_cases i <;>
    simp [vecx_psg_wr, vecx_psg_set_reg, wr_derive, set_tperiod, dcmask, dcmask_list,
      Function.update, store_reg]

theorem dcmask_le_255 (k : Fin 16) : dcmask k ≤ 255 := by
  revert k; decide

/-- C5: for every channel `i`, every state whose stored registers are masked
(`reg[k] ≤ dcmask[k]`, as every write stores them) and every `v`: after a write to
register `2i` or `2i+1`, `tperiod[i]` equals `P = reg[2i] | (reg[2i+1] << 8)` of the
stored registers when `P ≠ 0` and 1 when `P = 0`; writing the low/high pair (0,0), in
either order, leaves `tperiod[i] = 1`; and the resulting period is in 1..4095. -/
theorem C5_tone_period (s : psg_t) (i : Fin 3) (r v : Nat) (hs : ∀ k, s.reg k ≤ dcmask k)
    (hr : r = 2 * i.val ∨ r = 2 * i.val + 1) :
    (∃ s1, vecx_psg_wr (vecx_psg_set_reg s r) v = some s1 ∧
      s1.tperiod i =
        (if s1.reg (tone_lo i) ||| (s1.reg (tone_hi i) <<< 8) = 0 then 1
         else s1.reg (tone_lo i) ||| (s1.reg (tone_hi i) <<< 8)) ∧
      1 ≤ s1.tperiod i ∧ s1.tperiod i ≤ 4095) ∧
    ((vecx_psg_wr (vecx_psg_set_reg s (2 * i.val)) 0).bind fun s1 =>
      (vecx_psg_wr (vecx_psg_set_reg s1 (2 * i.val + 1)) 0).map fun s2 => s2.tperiod i)
      = some 1 ∧
    ((vecx_psg_wr (vecx_psg_set_reg s (2 * i.val + 1)) 0).bind fun s1 =>
      (vecx_psg_wr (vecx_psg_set_reg s1 (2 * i.val)) 0).map fun s2 => s2.tperiod i)
      = some 1 := by
  refine ⟨?_, wr_pair_zero_lo_hi s i, wr_pair_zero_hi_lo s i⟩
  have hl : (vecx_psg_set_reg s r).rlatch = r := rfl
  have hlt : (vecx_psg_set_reg s r).rlatch < 16 := by rw [hl]; omega
  have hbyte : ∀ k, (vecx_psg_set_reg s r).reg k < 256 := fun k =>
    Nat.lt_succ_of_le (Nat.le_trans (hs k) (dcmask_le_255 k))
  obtain ⟨s1, hw, -, hb, ht⟩ :=
    wr_tperiod (vecx_psg_set_reg s r) i v hbyte (by rw [hl]; exact hr)
  have hd : dcmask (tone_hi i) = 15 := by fin_cases i <;> rfl
  have hreg := vecx_psg_wr_reg _ _ v hlt hw
  have hhi1 : s1.reg (tone_hi i) ≤ 15 := by
    rw [hreg]
    by_cases hk : tone_hi i = ⟨(vecx_psg_set_reg s r).rlatch, hlt⟩
    · rw [← hk, Function.update_same, hd]
      exact Nat.and_le_right
    · rw [Function.update_noteq hk]
      exact hd ▸ hs (tone_hi i)
  have hlt2 := or_shl8_lt_4096 _ _ (hb (tone_lo i)) hhi1
  refine ⟨s1, hw, ht, ?_, ?_⟩
  · rw [ht]; split <;> omega
  · rw [ht]; split <;> omega

theorem C5_tone_period_witness :
    (∃ s1, vecx_psg_wr (vecx_psg_set_reg
        (wr_derive (store_reg (vecx_psg_set_reg (vecx_psg_init psg_static) 1) 1 0x0a) 0x0a)
        0) 0x34 = some s1 ∧
      s1.tperiod 0 =
        (if s1.reg (tone_lo 0) ||| (s1.reg (tone_hi 0) <<< 8) = 0 then 1
         else s1.reg (tone_lo 0) ||| (s1.reg (tone_hi 0) <<< 8)) ∧
      1 ≤ s1.tperiod 0 ∧ s1.tperiod 0 ≤ 4095) ∧
    ((vecx_psg_wr (vecx_psg_set_reg
        (wr_derive (store_reg (vecx_psg_set_reg (vecx_psg_init psg_static) 1) 1 0x0a) 0x0a)
        (2 * (0 : Fin 3).val)) 0).bind fun s1 =>
      (vecx_psg_wr (vecx_psg_set_reg s1 (2 * (0 : Fin 3).val + 1)) 0).map
        fun s2 => s2.tperiod 0) = some 1 ∧
    ((vecx_psg_wr (vecx_psg_set_reg
        (wr_derive (store_reg (vecx_psg_set_reg (vecx_psg_init psg_static) 1) 1 0x0a) 0x0a)
        (2 * (0 : Fin 3).val + 1)) 0).bind fun s1 =>
      (vecx_psg_wr (vecx_psg_set_reg s1 (2 * (0 : Fin 3).val)) 0).map
        fun s2 => s2.tperiod 0) = some 1 :=
  C5_tone_period
    (wr_derive (store_reg (vecx_psg_set_reg (vecx_psg_init psg_static) 1) 1 0x0a) 0x0a)
    0 0 0x34 (by decide) (Or.inl rfl)

/-- C6: for every state and every `v`, after selecting register 6 and writing `v`
the noise period is `v AND 0x1f` when that is non-zero and 1 when it is zero (so
writing 0 gives period 1), and it is always in 1..31. -/
theorem C6_noise_period (s : psg_t) (v : Nat) :
    ∃ s1, vecx_psg_wr (vecx_psg_set_reg s 6) v = some s1 ∧
      s1.nperiod = (if v &&& 0x1f = 0 then 1 else v &&& 0x1f) ∧
      ((vecx_psg_wr (vecx_psg_set_reg s 6) 0).map fun s2 => s2.nperiod) = some 1 ∧
      1 ≤ s1.nperiod ∧ s1.nperiod ≤ 31 := by
  have hle : v &&& 0x1f ≤ 31 := Nat.and_le_right
  have h : vecx_psg_wr (vecx_psg_set_reg s 6) v = some
      (wr_derive { vecx_psg_set_reg s 6 with
        reg := Function.update s.reg 6 (v &&& 0x1f) } v) := by
    have h6 : (vecx_psg_set_reg s 6).rlatch < 16 := show 6 < 16 by decide
    rw [vecx_psg_wr_eq _ _ h6]
    rfl
  refine ⟨_, h, ?_, ?_, ?_, ?_⟩
  · simp only [wr_derive, vecx_psg_set_reg, Function.update_same]
    split <;> simp_all
  · simp [vecx_psg_wr, vecx_psg_set_reg, wr_derive, dcmask, dcmask_list, store_reg]
  · simp only [wr_derive, vecx_psg_set_reg, Function.update_same]
    split
    · simp_all
    · simp_all; omega
  · simp only [wr_derive, vecx_psg_set_reg, Function.update_same]
    split <;> simp_all

/-! ## What a chip cycle leaves alone -/

theorem clock_tone_frame (s : psg_t) (i : Fin 3) :
    (clock_tone s i).reg = s.reg ∧ (clock_tone s i).rlatch = s.rlatch ∧
    (clock_tone s i).tperiod = s.tperiod ∧ (clock_tone s i).nperiod = s.nperiod ∧
    (clock_tone s i).eperiod = s.eperiod ∧ (clock_tone s i).ecounter = s.ecounter ∧
    (clock_tone s i).eseg = s.eseg ∧ (clock_tone s i).estep = s.estep ∧
    (clock_tone s i).evol = s.evol ∧ (clock_tone s i).amplitude = s.amplitude ∧
    (clock_tone s i).emode = s.emode := by
  by_cases h : s.tperiod i ≤ (s.tcounter i + 1) % 65536 <;> simp [clock_tone, h]

theorem clock_noise_frame (s : psg_t) :
    (clock_noise s).reg = s.reg ∧ (clock_noise s).rlatch = s.rlatch ∧
    (clock_noise s).tperiod = s.tperiod ∧ (clock_noise s).nperiod = s.nperiod ∧
    (clock_noise s).eperiod = s.eperiod ∧ (clock_noise s).ecounter = s.ecounter ∧
    (clock_noise s).eseg = s.eseg ∧ (clock_noise s).estep = s.estep ∧
    (clock_noise s).evol = s.evol ∧ (clock_noise s).amplitude = s.amplitude ∧
    (clock_noise s).emode = s.emode := by
  by_cases h : s.nperiod <<< 1 ≤ (s.ncounter + 1) % 65536 <;> simp [clock_noise, h]

theorem vecx_psg_env_reset_frame (s : psg_t) :
    (vecx_psg_env_reset s).reg = s.reg ∧ (vecx_psg_env_reset s).rlatch = s.rlatch ∧
    (vecx_psg_env_reset s).tperiod = s.tperiod ∧ (vecx_psg_env_reset s).nperiod = s.nperiod ∧
    (vecx_psg_env_reset s).eperiod = s.eperiod ∧
    (vecx_psg_env_reset s).ecounter = s.ecounter ∧
    (vecx_psg_env_reset s).eseg = s.eseg ∧ (vecx_psg_env_reset s).estep = 0 ∧
    (vecx_psg_env_reset s).amplitude = s.amplitude ∧
    (vecx_psg_env_reset s).emode = s.emode := by
  unfold vecx_psg_env_reset
  simp only
  split
  · split <;> simp
  · simp

theorem envelope_volume_frame (s : psg_t) :
    (envelope_volume s).reg = s.reg ∧ (envelope_volume s).rlatch = s.rlatch ∧
    (envelope_volume s).tperiod = s.tperiod ∧ (envelope_volume s).nperiod = s.nperiod ∧
    (envelope_volume s).eperiod = s.eperiod ∧ (envelope_volume s).ecounter = s.ecounter ∧
    (envelope_volume s).eseg = s.eseg ∧ (envelope_volume s).estep = s.estep ∧
    (envelope_volume s).amplitude = s.amplitude ∧
    (envelope_volume s).emode = s.emode := by
  unfold envelope_volume
  repeat' split
  all_goals simp

theorem envelope_rollover_frame (s : psg_t) :
    (envelope_rollover s).reg = s.reg ∧ (envelope_rollover s).rlatch = s.rlatch ∧
    (envelope_rollover s).tperiod = s.tperiod ∧ (envelope_rollover s).nperiod = s.nperiod ∧
    (envelope_rollover s).eperiod = s.eperiod ∧
    (envelope_rollover s).amplitude = s.amplitude ∧
    (envelope_rollover s).emode = s.emode := by
  obtain ⟨h1, h2, h3, h4, h5, -, -, -, h9, h10⟩ := envelope_volume_frame { s with ecounter := 0 }
  unfold envelope_rollover
  simp only
  split
  · split
    · obtain ⟨g1, g2, g3, g4, g5, -, -, -, g9, g10⟩ := vecx_psg_env_reset_frame
        { envelope_volume { s with ecounter := 0 } with
          estep := ((envelope_volume { s with ecounter := 0 }).estep + 1) % 256
          eseg := (envelope_volume { s with ecounter := 0 }).eseg ^^^ 1 }
      exact ⟨g1.trans h1, g2.trans h2, g3.trans h3, g4.trans h4, g5.trans h5, g9.trans h9,
        g10.trans h10⟩
    · obtain ⟨g1, g2, g3, g4, g5, -, -, -, g9, g10⟩ := vecx_psg_env_reset_frame
        { envelope_volume { s with ecounter := 0 } with
          estep := ((envelope_volume { s with ecounter := 0 }).estep + 1) % 256
          eseg := 1 }
      exact ⟨g1.trans h1, g2.trans h2, g3.trans h3, g4.trans h4, g5.trans h5, g9.trans h9,
        g10.trans h10⟩
  · exact ⟨h1, h2, h3, h4, h5, h9, h10⟩

theorem clock_envelope_frame (s : psg_t) :
    (clock_envelope s).reg = s.reg ∧ (clock_envelope s).rlatch = s.rlatch ∧
    (clock_envelope s).tperiod = s.tperiod ∧ (clock_envelope s).nperiod = s.nperiod ∧
    (clock_envelope s).eperiod = s.eperiod ∧
    (clock_envelope s).amplitude = s.amplitude ∧
    (clock_envelope s).emode = s.emode := by
  unfold clock_envelope
  split
  · exact envelope_rollover_frame _
  · simp

/-- A chip cycle changes none of the registers, the latch, the periods, the
amplitudes and the envelope mode flags. -/
theorem clock_frame (s : psg_t) :
    (clock s).reg = s.reg ∧ (clock s).rlatch = s.rlatch ∧
    (clock s).tperiod = s.tperiod ∧ (clock s).nperiod = s.nperiod ∧
    (clock s).eperiod = s.eperiod ∧ (clock s).amplitude = s.amplitude ∧
    (clock s).emode = s.emode := by
  unfold clock
  simp only [List.foldl]
  obtain ⟨a1, a2, a3, a4, a5, -, -, -, -, a10, a11⟩ := clock_tone_frame s 0
  obtain ⟨b1, b2, b3, b4, b5, -, -, -, -, b10, b11⟩ := clock_tone_frame (clock_tone s 0) 1
  obtain ⟨c1, c2, c3, c4, c5, -, -, -, -, c10, c11⟩ :=
    clock_tone_frame (clock_tone (clock_tone s 0) 1) 2
  obtain ⟨d1, d2, d3, d4, d5, -, -, -, -, d10, d11⟩ :=
    clock_noise_frame (clock_tone (clock_tone (clock_tone s 0) 1) 2)
  obtain ⟨e1, e2, e3, e4, e5, e6, e7⟩ :=
    clock_envelope_frame (clock_noise (clock_tone (clock_tone (clock_tone s 0) 1) 2))
  exact ⟨by rw [e1, d1, c1, b1, a1], by rw [e2, d2, c2, b2, a2], by rw [e3, d3, c3, b3, a3],
    by rw [e4, d4, c4, b4, a4], by rw [e5, d5, c5, b5, a5], by rw [e6, d10, c10, b10, a10],
    by rw [e7, d11, c11, b11, a11]⟩

/-- A successful `vecx_psg_exec` leaves the chip in the state `clock` computes. -/
theorem vecx_psg_exec_psg (c c1 : ctx) (n : Nat) (h : vecx_psg_exec c = some (c1, n)) :
    c1.psg = clock c.psg := by
  unfold vecx_psg_exec at h
  simp only at h
  split at h
  · simp only [Option.some.injEq, Prod.mk.injEq] at h
    rw [← h.1]
  · exact absurd h (by simp)

/-! ## Periods -/

theorem wr_derive_tperiod (s : psg_t) (v : Nat) (i : Fin 3) :
    (wr_derive s v).tperiod i =
      if s.rlatch = 2 * i.val ∨ s.rlatch = 2 * i.val + 1 then tone_period_of s i
      else s.tperiod i := by
  unfold wr_derive
  split <;> fin_cases i <;>
    simp_all [set_tperiod, tone_period_of, tone_lo, tone_hi, (vecx_psg_env_reset_frame _).2.2.1]
  all_goals split <;> rfl

theorem wr_derive_nperiod (s : psg_t) (v : Nat) :
    (wr_derive s v).nperiod =
      if s.rlatch = 6 then (if s.reg 6 = 0 then 1 else s.reg 6) else s.nperiod := by
  unfold wr_derive
  split <;> simp_all [set_tperiod, (vecx_psg_env_reset_frame _).2.2.2.1]
  split <;> simp_all

theorem tone_period_of_bounds (s : psg_t) (i : Fin 3) (hm : ∀ r, s.reg r ≤ dcmask r) :
    1 ≤ tone_period_of s i ∧ tone_period_of s i ≤ 4095 := by
  have hlo : s.reg (tone_lo i) ≤ 255 := by
    have h : dcmask (tone_lo i) = 255 := by fin_cases i <;> rfl
    exact h ▸ hm (tone_lo i)
  have hhi : s.reg (tone_hi i) ≤ 15 := by
    have h : dcmask (tone_hi i) = 15 := by fin_cases i <;> rfl
    exact h ▸ hm (tone_hi i)
  have hlt := or_shl8_lt_4096 _ _ (Nat.lt_succ_of_le hlo) hhi
  unfold tone_period_of
  rw [Nat.mod_eq_of_lt (by omega)]
  split <;> omega

theorem vecx_psg_init_period_inv (s0 : psg_t) : period_inv (vecx_psg_init s0) := by
  refine ⟨?_, fun i => Nat.zero_le _, Nat.zero_le _⟩
  show ∀ r, (vecx_psg_init psg_static).reg r ≤ dcmask r
  decide

theorem step_rlatch (c c1 : ctx) (op : Op) (hs : step c op = some c1) :
    c1.psg.rlatch = latch_after c.psg.rlatch op := by
  cases op with
  | set_reg r =>
    simp only [step, Option.some.injEq] at hs
    rw [← hs]; rfl
  | wr v =>
    simp only [step, Option.map_eq_some'] at hs
    obtain ⟨s1, hw, rfl⟩ := hs
    by_cases h : c.psg.rlatch < 16
    · rw [vecx_psg_wr_eq _ _ h] at hw
      rw [← Option.some.inj hw]
      exact wr_derive_rlatch _ _
    · simp [vecx_psg_wr, h] at hw
  | io_wr v =>
    simp only [step, Option.some.injEq] at hs
    rw [← hs]; rfl
  | exec =>
    simp only [step, Option.map_eq_some'] at hs
    obtain ⟨⟨c2, n⟩, he, rfl⟩ := hs
    rw [vecx_psg_exec_psg _ _ _ he]
    exact (clock_frame _).2.1

/-- One call keeps the register and period ranges, and makes a period non-zero
exactly when it writes one of the registers the period derives from. -/
theorem step_period (c c1 : ctx) (op : Op) (hok : op.ok = true) (hs : step c op = some c1)
    (h : period_inv c.psg) :
    period_inv c1.psg ∧
    (∀ i : Fin 3, 1 ≤ c1.psg.tperiod i ↔
      (1 ≤ c.psg.tperiod i ∨ 2 * i.val ∈ written_regs [op] c.psg.rlatch ∨
        2 * i.val + 1 ∈ written_regs [op] c.psg.rlatch)) ∧
    (1 ≤ c1.psg.nperiod ↔ (1 ≤ c.psg.nperiod ∨ 6 ∈ written_regs [op] c.psg.rlatch)) := by
  obtain ⟨hm, ht, hn⟩ := h
  cases op with
  | set_reg r =>
    simp only [step, Option.some.injEq] at hs
    subst hs
    simp [written_regs, vecx_psg_set_reg, period_inv, hm, ht, hn]
  | wr v =>
    simp only [step, Option.map_eq_some'] at hs
    obtain ⟨s1, hw, rfl⟩ := hs
    by_cases hl : c.psg.rlatch < 16
    · have hreg := vecx_psg_wr_reg _ _ v hl hw
      rw [vecx_psg_wr_eq _ _ hl] at hw
      have hs1 := Option.some.inj hw
      have hm1 : ∀ r, s1.reg r ≤ dcmask r := by
        intro r
        rw [hreg]
        by_cases hr : r = ⟨c.psg.rlatch, hl⟩
        · rw [hr, Function.update_same]; exact Nat.and_le_right
        · rw [Function.update_noteq hr]; exact hm r
      have hm2 : ∀ r, (store_reg c.psg ⟨c.psg.rlatch, hl⟩ v).reg r ≤ dcmask r := by
        intro r
        show Function.update c.psg.reg _ _ r ≤ dcmask r
        rw [← hreg]; exact hm1 r
      have htp : ∀ i : Fin 3, s1.tperiod i =
          if c.psg.rlatch = 2 * i.val ∨ c.psg.rlatch = 2 * i.val + 1 then
            tone_period_of (store_reg c.psg ⟨c.psg.rlatch, hl⟩ v) i
          else c.psg.tperiod i := by
        intro i; rw [← hs1]; exact wr_derive_tperiod _ _ _
      have hnp : s1.nperiod =
          if c.psg.rlatch = 6 then (if s1.reg 6 = 0 then 1 else s1.reg 6)
          else c.psg.nperiod := by
        rw [hreg, ← hs1]; exact wr_derive_nperiod _ _
      have h6 : s1.reg 6 ≤ 31 := hm1 6
      refine ⟨⟨hm1, ?_, ?_⟩, ?_, ?_⟩
      · intro i
        have := tone_period_of_bounds _ i hm2
        rw [htp i]; split
        · exact this.2
        · exact ht i
      · rw [hnp]; split
        · split <;> omega
        · exact hn
      · intro i
        have := tone_period_of_bounds _ i hm2
        simp only [written_regs, List.mem_singleton]
        rw [htp i]
        split
        · rename_i hc
          constructor
          · intro _; rcases hc with hc | hc
            · exact Or.inr (Or.inl hc.symm)
            · exact Or.inr (Or.inr hc.symm)
          · intro _; exact this.1
        · rename_i hc
          constructor
          · intro h1; exact Or.inl h1
          · rintro (h1 | h1 | h1)
            · exact h1
            · exact absurd (Or.inl h1.symm) hc
            · exact absurd (Or.inr h1.symm) hc
      · simp only [written_regs, List.mem_singleton]
        rw [hnp]
        split
        · rename_i hc
          constructor
          · intro _; exact Or.inr hc.symm
          · intro _; split <;> omega
        · rename_i hc
          constructor
          · intro h1; exact Or.inl h1
          · rintro (h1 | h1)
            · exact h1
            · exact absurd h1.symm hc
    · simp [vecx_psg_wr, hl] at hw
  | io_wr v =>
    simp only [step, Option.some.injEq] at hs
    subst hs
    have hv : v < 256 := by simpa [Op.ok] using hok
    refine ⟨⟨?_, ht, hn⟩, ?_, ?_⟩
    · intro r
      show Function.update c.psg.reg 14 v r ≤ dcmask r
      by_cases hr : r = 14
      · rw [hr, Function.update_same]
        show v ≤ 255
        omega
      · rw [Function.update_noteq hr]; exact hm r
    · intro i; simp [written_regs, vecx_psg_io_wr]
    · simp [written_regs, vecx_psg_io_wr]
  | exec =>
    simp only [step, Option.map_eq_some'] at hs
    obtain ⟨⟨c2, n⟩, he, rfl⟩ := hs
    have hp := vecx_psg_exec_psg _ _ _ he
    obtain ⟨f1, -, f3, f4, -⟩ := clock_frame c.psg
    simp only [hp, period_inv, f1, f3, f4, written_regs, List.not_mem_nil, or_false]
    exact ⟨⟨hm, ht, hn⟩, fun _ => trivial, trivial⟩

theorem written_regs_cons (op : Op) (ops : List Op) (l : Nat) :
    written_regs (op :: ops) l = written_regs [op] l ++ written_regs ops (latch_after l op) := by
  cases op <;> simp [written_regs, latch_after]

/-- A sequence of calls keeps the register and period ranges, and a period is
non-zero afterwards exactly when it was before or one of its registers is written. -/
theorem run_period (ops : List Op) (c c1 : ctx) (hok : ∀ op ∈ ops, op.ok = true)
    (hrun : run ops c = some c1) (h : period_inv c.psg) :
    period_inv c1.psg ∧
    (∀ i : Fin 3, 1 ≤ c1.psg.tperiod i ↔
      (1 ≤ c.psg.tperiod i ∨ 2 * i.val ∈ written_regs ops c.psg.rlatch ∨
        2 * i.val + 1 ∈ written_regs ops c.psg.rlatch)) ∧
    (1 ≤ c1.psg.nperiod ↔ (1 ≤ c.psg.nperiod ∨ 6 ∈ written_regs ops c.psg.rlatch)) := by
  induction ops generalizing c with
  | nil =>
    simp only [run, Option.some.injEq] at hrun
    subst hrun
    simp [written_regs, h]
  | cons op ops ih =>
    simp only [run, Option.bind_eq_some] at hrun
    obtain ⟨c2, hstep, hrest⟩ := hrun
    have hop : op.ok = true := hok op (List.mem_cons_self _ _)
    obtain ⟨hi2, ht2, hn2⟩ := step_period c c2 op hop hstep h
    obtain ⟨hi1, ht1, hn1⟩ := ih c2 (fun o ho => hok o (List.mem_cons_of_mem _ ho)) hrest hi2
    have hl := step_rlatch c c2 op hstep
    rw [hl] at ht1 hn1
    refine ⟨hi1, ?_, ?_⟩
    · intro i
      rw [ht1 i, ht2 i, written_regs_cons op ops]
      simp only [List.mem_append]
      tauto
    · rw [hn1, hn2, written_regs_cons op ops]
      simp only [List.mem_append]
      tauto

/-- C7 as stated fails: after `vecx_psg_init`, select 7, write 0x3E, an IO write and
one `vecx_psg_exec`, the three tone periods and the noise period are all 0. -/
theorem C7_periods_zero_after_init :
    (run [Op.set_reg 7, Op.wr 0x3E, Op.io_wr 1, Op.exec]
        ⟨vecx_psg_init psg_static, some fun _ => 0, 0⟩).map
      (fun c => (c.psg.tperiod 0, c.psg.tperiod 1, c.psg.tperiod 2, c.psg.nperiod)) =
      some (0, 0, 0, 0) := by
  decide

/-- C7 (amended): in every state reached from `vecx_psg_init` by calls of
`vecx_psg_set_reg` (index 0..15), `vecx_psg_wr`, `vecx_psg_io_wr` and `vecx_psg_exec`,
each tone period is at most 4095 and the noise period at most 31; `tperiod[i]` is
non-zero exactly when register `2i` or `2i+1` has been written since the
initialisation, and `nperiod` is non-zero exactly when register 6 has been. -/
theorem C7_period_ranges (c : ctx) (ops : List Op) (c1 : ctx)
    (hok : ∀ op ∈ ops, op.ok = true)
    (hrun : run ops { c with psg := vecx_psg_init c.psg } = some c1) :
    (∀ i : Fin 3, c1.psg.tperiod i ≤ 4095 ∧
      (1 ≤ c1.psg.tperiod i ↔
        (2 * i.val ∈ written_regs ops 0 ∨ 2 * i.val + 1 ∈ written_regs ops 0))) ∧
    c1.psg.nperiod ≤ 31 ∧ (1 ≤ c1.psg.nperiod ↔ 6 ∈ written_regs ops 0) := by
  obtain ⟨⟨-, ht, hn⟩, htp, hnp⟩ :=
    run_period ops _ c1 hok hrun (vecx_psg_init_period_inv c.psg)
  refine ⟨fun i => ⟨ht i, ?_⟩, hn, ?_⟩
  · rw [htp i]
    show (1 ≤ 0 ∨ _) ↔ _
    simp [vecx_psg_init]
  · rw [hnp]
    show (1 ≤ 0 ∨ _) ↔ _
    simp [vecx_psg_init]

theorem C7_period_ranges_witness :
    (∀ i : Fin 3,
      (wr_derive (store_reg (vecx_psg_set_reg (vecx_psg_init psg_static) 2) 2 0x21)
        0x21).tperiod i ≤ 4095 ∧
      (1 ≤ (wr_derive (store_reg (vecx_psg_set_reg (vecx_psg_init psg_static) 2) 2 0x21)
          0x21).tperiod i ↔
        (2 * i.val ∈ written_regs [Op.set_reg 2, Op.wr 0x21] 0 ∨
          2 * i.val + 1 ∈ written_regs [Op.set_reg 2, Op.wr 0x21] 0))) ∧
    (wr_derive (store_reg (vecx_psg_set_reg (vecx_psg_init psg_static) 2) 2 0x21)
      0x21).nperiod ≤ 31 ∧
    (1 ≤ (wr_derive (store_reg (vecx_psg_set_reg (vecx_psg_init psg_static) 2) 2 0x21)
        0x21).nperiod ↔ 6 ∈ written_regs [Op.set_reg 2, Op.wr 0x21] 0) :=
  C7_period_ranges ⟨psg_static, none, 0⟩ [Op.set_reg 2, Op.wr 0x21]
    ⟨wr_derive (store_reg (vecx_psg_set_reg (vecx_psg_init psg_static) 2) 2 0x21) 0x21, none, 0⟩
    (by decide) rfl

/-! ## Envelope -/

/-- C8 (the code at the failing input): after `vecx_psg_init`, two calls of
`vecx_psg_exec` leave `evol = 255`: the second call decrements the 8-bit volume from
0 (shape 0, segment 0, step 1), and the result is outside 0..15. -/
theorem C8_evol_255_after_init :
    (run [Op.exec, Op.exec] ⟨vecx_psg_init psg_static, some fun _ => 0, 0⟩).map
      (fun c => (c.psg.evol, decide (c.psg.evol ≤ 15))) = some (255, false) := by
  decide

theorem envelope_rollover_estep (s : psg_t) :
    (envelope_rollover s).estep =
      if (s.estep + 1) % 256 ≥ 16 then 0 else (s.estep + 1) % 256 := by
  obtain ⟨-, -, -, -, -, -, -, h8, -⟩ := envelope_volume_frame { s with ecounter := 0 }
  unfold envelope_rollover
  simp only [h8]
  split
  · exact (vecx_psg_env_reset_frame _).2.2.2.2.2.2.2.1
  · rfl

theorem envelope_rollover_eseg (s : psg_t) :
    (envelope_rollover s).eseg =
      if (s.estep + 1) % 256 ≥ 16 then (if s.reg 13 &&& 0x09 = 0x08 then s.eseg ^^^ 1 else 1)
      else s.eseg := by
  obtain ⟨h1, -, -, -, -, -, h7, h8, -⟩ := envelope_volume_frame { s with ecounter := 0 }
  unfold envelope_rollover
  simp only [h8, h1, h7]
  split
  · rw [(vecx_psg_env_reset_frame _).2.2.2.2.2.2.1]
    split <;> rfl
  · rfl

theorem shape_alternates (shape : Nat) (h : shape < 16) :
    (shape &&& 0x09 = 0x08) ↔ (shape = 8 ∨ shape = 10 ∨ shape = 12 ∨ shape = 14) := by
  interval_cases shape <;> decide

theorem envelope_rollover_env_at (s : psg_t) (shape k : Nat) (hshape : shape < 16)
    (h : env_at s shape k) : env_at (envelope_rollover s) shape (k + 1) := by
  obtain ⟨h13, hstep, hseg⟩ := h
  refine ⟨(envelope_rollover_frame s).1 ▸ h13, ?_, ?_⟩
  · rw [envelope_rollover_estep, hstep]
    split <;> omega
  · rw [envelope_rollover_eseg, hstep, hseg, h13]
    unfold eseg_after
    by_cases ha : shape = 8 ∨ shape = 10 ∨ shape = 12 ∨ shape = 14
    · rw [if_pos ((shape_alternates shape hshape).2 ha), if_pos ha, if_pos ha]
      split
      · have h2 : (k + 1) / 16 % 2 = 1 - k / 16 % 2 := by omega
        rw [h2]
        rcases Nat.mod_two_eq_zero_or_one (k / 16) with h0 | h0 <;> rw [h0] <;> rfl
      · omega
    · rw [if_neg (fun hc => ha ((shape_alternates shape hshape).1 hc)), if_neg ha, if_neg ha]
      split
      · rw [if_neg (by omega)]
      · split <;> split <;> omega

/-- The tone and noise blocks leave the registers and the envelope fields alone. -/
theorem tone_noise_frame (s : psg_t) :
    (clock_noise (([0, 1, 2] : List (Fin 3)).foldl clock_tone s)).reg = s.reg ∧
    (clock_noise (([0, 1, 2] : List (Fin 3)).foldl clock_tone s)).eperiod = s.eperiod ∧
    (clock_noise (([0, 1, 2] : List (Fin 3)).foldl clock_tone s)).ecounter = s.ecounter ∧
    (clock_noise (([0, 1, 2] : List (Fin 3)).foldl clock_tone s)).eseg = s.eseg ∧
    (clock_noise (([0, 1, 2] : List (Fin 3)).foldl clock_tone s)).estep = s.estep ∧
    (clock_noise (([0, 1, 2] : List (Fin 3)).foldl clock_tone s)).evol = s.evol := by
  simp only [List.foldl]
  obtain ⟨a1, -, -, -, a5, a6, a7, a8, a9, -⟩ := clock_tone_frame s 0
  obtain ⟨b1, -, -, -, b5, b6, b7, b8, b9, -⟩ := clock_tone_frame (clock_tone s 0) 1
  obtain ⟨c1, -, -, -, c5, c6, c7, c8, c9, -⟩ :=
    clock_tone_frame (clock_tone (clock_tone s 0) 1) 2
  obtain ⟨d1, -, -, -, d5, d6, d7, d8, d9, -⟩ :=
    clock_noise_frame (clock_tone (clock_tone (clock_tone s 0) 1) 2)
  exact ⟨by rw [d1, c1, b1, a1], by rw [d5, c5, b5, a5], by rw [d6, c6, b6, a6],
    by rw [d7, c7, b7, a7], by rw [d8, c8, b8, a8], by rw [d9, c9, b9, a9]⟩

/-- A chip cycle advances the envelope position by one step exactly when the
envelope counter rolls over. -/
theorem clock_env_at (s : psg_t) (shape k : Nat) (hshape : shape < 16)
    (h : env_at s shape k) :
    env_at (clock s) shape (k + if envelope_due s = true then 1 else 0) := by
  obtain ⟨f1, f2, f3, f4, f5, -⟩ := tone_noise_frame s
  have hdue : envelope_due (clock_noise (([0, 1, 2] : List (Fin 3)).foldl clock_tone s)) =
      envelope_due s := by
    unfold envelope_due; rw [f2, f3]
  have ht : env_at (clock_noise (([0, 1, 2] : List (Fin 3)).foldl clock_tone s)) shape k := by
    unfold env_at; rw [f1, f4, f5]; exact h
  unfold clock clock_envelope
  generalize clock_noise (([0, 1, 2] : List (Fin 3)).foldl clock_tone s) = t at hdue ht ⊢
  rw [hdue]
  by_cases hd : envelope_due s = true
  · rw [if_pos hd, if_pos hd]
    exact envelope_rollover_env_at _ shape k hshape ht
  · rw [if_neg hd, if_neg hd]
    exact ht

theorem wr_derive_env (s : psg_t) (v : Nat) (h : s.rlatch ≠ 13) :
    (wr_derive s v).estep = s.estep ∧ (wr_derive s v).eseg = s.eseg ∧
    (wr_derive s v).evol = s.evol ∧ (wr_derive s v).ecounter = s.ecounter := by
  unfold wr_derive
  split <;> simp_all [set_tperiod]
  split <;> simp

/-- One call other than a write to register 13 moves the envelope position by the
rollover it causes. -/
theorem step_env_at (c c1 : ctx) (op : Op) (shape k : Nat) (hshape : shape < 16)
    (hno : 13 ∉ written_regs [op] c.psg.rlatch) (hs : step c op = some c1)
    (h : env_at c.psg shape k) :
    env_at c1.psg shape
      (k + if op = Op.exec ∧ envelope_due c.psg = true then 1 else 0) := by
  cases op with
  | set_reg r =>
    simp only [step, Option.some.injEq] at hs
    subst hs
    simpa using h
  | wr v =>
    simp only [step, Option.map_eq_some'] at hs
    obtain ⟨s1, hw, rfl⟩ := hs
    have hne : c.psg.rlatch ≠ 13 := by
      intro hc; exact hno (by simp [written_regs, hc])
    by_cases hl : c.psg.rlatch < 16
    · have hreg := vecx_psg_wr_reg _ _ v hl hw
      rw [vecx_psg_wr_eq _ _ hl] at hw
      have hs1 := Option.some.inj hw
      obtain ⟨e1, e2, -, -⟩ := wr_derive_env (store_reg c.psg ⟨c.psg.rlatch, hl⟩ v) v hne
      obtain ⟨h13, hstep, hseg⟩ := h
      have h13' : s1.reg 13 = c.psg.reg 13 := by
        rw [hreg]
        exact Function.update_noteq (fun hc => hne (congrArg Fin.val hc).symm) _ _
      refine ⟨?_, ?_, ?_⟩
      · simpa [h13'] using h13
      · simp only [reduceCtorEq, false_and, if_false, Nat.add_zero]
        rw [← hs1, e1]; exact hstep
      · simp only [reduceCtorEq, false_and, if_false, Nat.add_zero]
        rw [← hs1, e2]; exact hseg
    · simp [vecx_psg_wr, hl] at hw
  | io_wr v =>
    simp only [step, Option.some.injEq] at hs
    subst hs
    obtain ⟨h13, hstep, hseg⟩ := h
    refine ⟨?_, by simpa [vecx_psg_io_wr] using hstep, by simpa [vecx_psg_io_wr] using hseg⟩
    show Function.update c.psg.reg 14 v 13 = shape
    rw [Function.update_noteq (by decide)]; exact h13
  | exec =>
    simp only [step, Option.map_eq_some'] at hs
    obtain ⟨⟨c2, n⟩, he, rfl⟩ := hs
    rw [vecx_psg_exec_psg _ _ _ he]
    simpa using clock_env_at c.psg shape k hshape h

/-- A sequence of calls without a write to register 13 moves the envelope position
by the number of envelope counter rollovers. -/
theorem run_env_at (ops : List Op) (c c1 : ctx) (shape k : Nat) (hshape : shape < 16)
    (hno : 13 ∉ written_regs ops c.psg.rlatch) (hrun : run ops c = some c1)
    (h : env_at c.psg shape k) : env_at c1.psg shape (k + rollovers ops c) := by
  induction ops generalizing c k with
  | nil =>
    simp only [run, Option.some.injEq] at hrun
    subst hrun
    simpa [rollovers] using h
  | cons op ops ih =>
    simp only [run, Option.bind_eq_some] at hrun
    obtain ⟨c2, hstep, hrest⟩ := hrun
    rw [written_regs_cons, List.mem_append, not_or] at hno
    have h2 := step_env_at c c2 op shape k hshape hno.1 hstep h
    have hl := step_rlatch c c2 op hstep
    have h3 := ih c2 _ (hl ▸ hno.2) hrest h2
    simp only [rollovers, hstep]
    rw [← Nat.add_assoc]
    exact h3

/-- C9: for every shape `s` in 0..15, after selecting register 13 and writing `s`,
under every later sequence of calls without a write to register 13, with `k` the
number of envelope counter rollovers in `vecx_psg_exec` along the sequence: if `s` is
8, 10, 12 or 14 the segment `eseg` is `floor(k/16) mod 2`, and for every other shape
it is 0 while `k < 16` and 1 from `k = 16` on. -/
theorem C9_envelope_segment (c : ctx) (shape : Nat) (hshape : shape < 16) :
    ∃ s1, vecx_psg_wr (vecx_psg_set_reg c.psg 13) shape = some s1 ∧
      ∀ (ops : List Op) (c1 : ctx), 13 ∉ written_regs ops 13 →
        run ops { c with psg := s1 } = some c1 →
        c1.psg.eseg =
          if shape = 8 ∨ shape = 10 ∨ shape = 12 ∨ shape = 14 then
            (rollovers ops { c with psg := s1 } / 16) % 2
          else if rollovers ops { c with psg := s1 } < 16 then 0 else 1 := by
  have hl : (vecx_psg_set_reg c.psg 13).rlatch < 16 := show 13 < 16 by decide
  refine ⟨_, vecx_psg_wr_eq _ _ hl, ?_⟩
  intro ops c1 hno hrun
  have h0 : env_at (wr_derive
      (store_reg (vecx_psg_set_reg c.psg 13) ⟨(vecx_psg_set_reg c.psg 13).rlatch, hl⟩ shape)
      shape) shape 0 := by
    have hm : shape &&& 15 = shape := by interval_cases shape <;> rfl
    refine ⟨?_, ?_, ?_⟩
    · rw [wr_derive_reg]
      show Function.update c.psg.reg 13 (shape &&& 15) 13 = shape
      rw [Function.update_same, hm]
    · exact (vecx_psg_env_reset_frame _).2.2.2.2.2.2.2.1
    · show (vecx_psg_env_reset _).eseg = eseg_after shape 0
      rw [(vecx_psg_env_reset_frame _).2.2.2.2.2.2.1]
      unfold eseg_after
      simp
  have hlatch : (wr_derive
      (store_reg (vecx_psg_set_reg c.psg 13) ⟨(vecx_psg_set_reg c.psg 13).rlatch, hl⟩ shape)
      shape).rlatch = 13 := wr_derive_rlatch _ _
  have h := run_env_at ops ⟨_, c.psgbuf, c.bufpos⟩ c1 shape 0 hshape
    (by
      show 13 ∉ written_regs ops (wr_derive _ _).rlatch
      rw [hlatch]; exact hno) hrun h0
  rw [Nat.zero_add] at h
  exact h.2.2

set_option maxRecDepth 100000 in
theorem C9_envelope_segment_witness :
    ∃ s1 c1 c2, vecx_psg_wr (vecx_psg_set_reg (vecx_psg_init psg_static) 13) 8 = some s1 ∧
      run (List.replicate 17 Op.exec) ⟨s1, some fun _ => 0, 0⟩ = some c1 ∧
      rollovers (List.replicate 17 Op.exec) ⟨s1, some fun _ => 0, 0⟩ = 17 ∧
      c1.psg.eseg = 1 ∧
      run (List.replicate 33 Op.exec) ⟨s1, some fun _ => 0, 0⟩ = some c2 ∧
      rollovers (List.replicate 33 Op.exec) ⟨s1, some fun _ => 0, 0⟩ = 33 ∧
      c2.psg.eseg = 0 := by
  obtain ⟨s1, hw, h⟩ :=
    C9_envelope_segment ⟨vecx_psg_init psg_static, some fun _ => 0, 0⟩ 8 (by decide)
  have hs1 : s1 =
      wr_derive (store_reg (vecx_psg_set_reg (vecx_psg_init psg_static) 13) 13 8) 8 := by
    have he := vecx_psg_wr_eq (vecx_psg_set_reg (vecx_psg_init psg_static) 13) 8
      (show 13 < 16 by decide)
    rw [he] at hw
    exact (Option.some.inj hw).symm
  subst hs1
  have hsome1 : (run (List.replicate 17 Op.exec)
      ⟨wr_derive (store_reg (vecx_psg_set_reg (vecx_psg_init psg_static) 13) 13 8) 8,
        some fun _ => 0, 0⟩).isSome = true := by decide
  have hsome2 : (run (List.replicate 33 Op.exec)
      ⟨wr_derive (store_reg (vecx_psg_set_reg (vecx_psg_init psg_static) 13) 13 8) 8,
        some fun _ => 0, 0⟩).isSome = true := by decide
  obtain ⟨c1, hc1⟩ := Option.isSome_iff_exists.mp hsome1
  obtain ⟨c2, hc2⟩ := Option.isSome_iff_exists.mp hsome2
  have hr1 : rollovers (List.replicate 17 Op.exec)
      ⟨wr_derive (store_reg (vecx_psg_set_reg (vecx_psg_init psg_static) 13) 13 8) 8,
        some fun _ => 0, 0⟩ = 17 := by decide
  have hr2 : rollovers (List.replicate 33 Op.exec)
      ⟨wr_derive (store_reg (vecx_psg_set_reg (vecx_psg_init psg_static) 13) 13 8) 8,
        some fun _ => 0, 0⟩ = 33 := by decide
  have he1 := h (List.replicate 17 Op.exec) c1 (by decide) hc1
  have he2 := h (List.replicate 33 Op.exec) c2 (by decide) hc2
  refine ⟨_, c1, c2, hw, hc1, hr1, ?_, hc2, hr2, ?_⟩
  · rw [he1]
    show (if (8 : Nat) = 8 ∨ (8 : Nat) = 10 ∨ (8 : Nat) = 12 ∨ (8 : Nat) = 14 then
      (rollovers (List.replicate 17 Op.exec)
        ⟨wr_derive (store_reg (vecx_psg_set_reg (vecx_psg_init psg_static) 13) 13 8) 8,
          some fun _ => 0, 0⟩ / 16) % 2 else _) = 1
    rw [hr1]; decide
  · rw [he2]
    show (if (8 : Nat) = 8 ∨ (8 : Nat) = 10 ∨ (8 : Nat) = 12 ∨ (8 : Nat) = 14 then
      (rollovers (List.replicate 33 Op.exec)
        ⟨wr_derive (store_reg (vecx_psg_set_reg (vecx_psg_init psg_static) 13) 13 8) 8,
          some fun _ => 0, 0⟩ / 16) % 2 else _) = 0
    rw [hr2]; decide

/-- With envelope period 0 the envelope counter rolls over on every call. -/
theorem envelope_due_of_eperiod_zero (s : psg_t) (h : s.eperiod = 0) :
    envelope_due s = true := by
  simp [envelope_due, h]

/-- The envelope step after one chip cycle. -/
theorem clock_estep (s : psg_t) :
    (clock s).estep =
      if envelope_due s = true then
        (if (s.estep + 1) % 256 ≥ 16 then 0 else (s.estep + 1) % 256)
      else s.estep := by
  obtain ⟨-, f2, f3, -, f5, -⟩ := tone_noise_frame s
  have hdue : envelope_due (clock_noise (([0, 1, 2] : List (Fin 3)).foldl clock_tone s)) =
      envelope_due s := by
    unfold envelope_due; rw [f2, f3]
  unfold clock clock_envelope
  generalize clock_noise (([0, 1, 2] : List (Fin 3)).foldl clock_tone s) = t at hdue f5 ⊢
  rw [hdue]
  by_cases hd : envelope_due s = true
  · rw [if_pos hd, if_pos hd, envelope_rollover_estep]
    show (if (t.estep + 1) % 256 ≥ 16 then 0 else (t.estep + 1) % 256) = _
    rw [f5]
  · rw [if_neg hd, if_neg hd]
    exact f5

theorem iterate_clock_estep (k : Nat) (s : psg_t) (hper : s.eperiod = 0)
    (hk : s.estep + k < 16) : (clock^[k] s).estep = s.estep + k := by
  induction k generalizing s with
  | zero => rfl
  | succ k ih =>
    rw [Function.iterate_succ, Function.comp_apply]
    have h1 : (clock s).estep = s.estep + 1 := by
      rw [clock_estep, if_pos (envelope_due_of_eperiod_zero s hper)]
      split <;> omega
    have h2 : (clock s).eperiod = 0 := by rw [(clock_frame s).2.2.2.2.1]; exact hper
    rw [ih (clock s) h2 (by omega), h1]
    omega

/-- C10 as stated fails: after `vecx_psg_init` (envelope period 0), select 13 and
write 0, two calls of `vecx_psg_exec` (`k = 1`) leave `estep = 2`, not 1. -/
theorem C10_two_calls_two_steps :
    (run [Op.set_reg 13, Op.wr 0, Op.exec, Op.exec]
        ⟨vecx_psg_init psg_static, some fun _ => 0, 0⟩).map
      (fun c => (c.psg.eperiod, c.psg.estep)) = some (0, 2) ∧ (2 : Nat) ≠ 1 := by
  decide

/-- C10 (amended): with envelope period 0 every call of `vecx_psg_exec` rolls the
envelope counter over, so the envelope advances one step per call: from a state
with `estep = 0` (as just after a register-13 write), after `k` calls with `k < 16`
the envelope step `estep` equals `k`. -/
theorem C10_envelope_period_zero (s : psg_t) (b : Nat → Int) (p k : Nat)
    (hper : s.eperiod = 0) (hstep : s.estep = 0) (hk : k < 16) :
    envelope_due s = true ∧ (clock^[k] s).estep = k ∧
    ∀ r, exec_samples k ⟨s, some b, p⟩ = some r → r.2.psg.estep = k := by
  have h1 : (clock^[k] s).estep = k := by
    rw [iterate_clock_estep k s hper (by omega), hstep, Nat.zero_add]
  refine ⟨envelope_due_of_eperiod_zero s hper, h1, ?_⟩
  intro r hr
  have h := exec_samples_eq k s b p
  rw [hr] at h
  cases hm : mix_run k s with
  | none => rw [hm] at h; simp at h
  | some l =>
    rw [hm] at h
    simp only [Option.map_some', Option.some.injEq, Prod.mk.injEq] at h
    rw [h.2]; exact h1

theorem C10_envelope_period_zero_witness :
    envelope_due (wr_derive (store_reg (vecx_psg_set_reg (vecx_psg_init psg_static) 13) 13 0) 0)
      = true ∧
    (clock^[5]
      (wr_derive (store_reg (vecx_psg_set_reg (vecx_psg_init psg_static) 13) 13 0) 0)).estep
      = 5 ∧
    ∀ r, exec_samples 5
        ⟨wr_derive (store_reg (vecx_psg_set_reg (vecx_psg_init psg_static) 13) 13 0) 0,
          some fun _ => 0, 0⟩ = some r → r.2.psg.estep = 5 :=
  C10_envelope_period_zero
    (wr_derive (store_reg (vecx_psg_set_reg (vecx_psg_init psg_static) 13) 13 0) 0)
    (fun _ => 0) 0 5 rfl rfl (by decide)

/-! ## The rest of what a chip cycle leaves alone -/

theorem clock_tone_flags (s : psg_t) (i : Fin 3) :
    (clock_tone s i).tdisable = s.tdisable ∧ (clock_tone s i).ndisable = s.ndisable ∧
    (clock_tone s i).nshift = s.nshift ∧ (clock_tone s i).ncounter = s.ncounter := by
  by_cases h : s.tperiod i ≤ (s.tcounter i + 1) % 65536 <;> simp [clock_tone, h]

theorem clock_tone_other (s : psg_t) (i j : Fin 3) (h : j ≠ i) :
    (clock_tone s i).tcounter j = s.tcounter j ∧ (clock_tone s i).sign j = s.sign j := by
  by_cases hc : s.tperiod i ≤ (s.tcounter i + 1) % 65536 <;>
    simp [clock_tone, hc, Function.update_noteq h]

theorem clock_tone_self (s : psg_t) (i : Fin 3) :
    (clock_tone s i).tcounter i =
      (if s.tperiod i ≤ (s.tcounter i + 1) % 65536 then 0 else (s.tcounter i + 1) % 65536) ∧
    (clock_tone s i).sign i =
      (if s.tperiod i ≤ (s.tcounter i + 1) % 65536 then s.sign i ^^^ 1 else s.sign i) := by
  by_cases hc : s.tperiod i ≤ (s.tcounter i + 1) % 65536 <;> simp [clock_tone, hc]

theorem clock_noise_flags (s : psg_t) :
    (clock_noise s).tdisable = s.tdisable ∧ (clock_noise s).ndisable = s.ndisable ∧
    (clock_noise s).tcounter = s.tcounter ∧ (clock_noise s).sign = s.sign := by
  by_cases h : s.nperiod <<< 1 ≤ (s.ncounter + 1) % 65536 <;> simp [clock_noise, h]

theorem clock_noise_nshift (s : psg_t) :
    (clock_noise s).nshift =
      if s.nperiod <<< 1 ≤ (s.ncounter + 1) % 65536 then noise_shift s.nshift
      else s.nshift := by
  by_cases h : s.nperiod <<< 1 ≤ (s.ncounter + 1) % 65536 <;>
    simp [clock_noise, h, noise_shift]

theorem vecx_psg_env_reset_flags (s : psg_t) :
    (vecx_psg_env_reset s).tdisable = s.tdisable ∧
    (vecx_psg_env_reset s).ndisable = s.ndisable ∧
    (vecx_psg_env_reset s).tcounter = s.tcounter ∧ (vecx_psg_env_reset s).sign = s.sign ∧
    (vecx_psg_env_reset s).nshift = s.nshift := by
  unfold vecx_psg_env_reset
  simp only
  split
  · split <;> simp
  · simp

theorem envelope_volume_flags (s : psg_t) :
    (envelope_volume s).tdisable = s.tdisable ∧ (envelope_volume s).ndisable = s.ndisable ∧
    (envelope_volume s).tcounter = s.tcounter ∧ (envelope_volume s).sign = s.sign ∧
    (envelope_volume s).nshift = s.nshift := by
  unfold envelope_volume
  repeat' split
  all_goals simp

theorem envelope_rollover_flags (s : psg_t) :
    (envelope_rollover s).tdisable = s.tdisable ∧ (envelope_rollover s).ndisable = s.ndisable ∧
    (envelope_rollover s).tcounter = s.tcounter ∧ (envelope_rollover s).sign = s.sign ∧
    (envelope_rollover s).nshift = s.nshift := by
  obtain ⟨h1, h2, h3, h4, h5⟩ := envelope_volume_flags { s with ecounter := 0 }
  unfold envelope_rollover
  simp only
  split
  · split
    · obtain ⟨g1, g2, g3, g4, g5⟩ := vecx_psg_env_reset_flags
        { envelope_volume { s with ecounter := 0 } with
          estep := ((envelope_volume { s with ecounter := 0 }).estep + 1) % 256
          eseg := (envelope_volume { s with ecounter := 0 }).eseg ^^^ 1 }
      exact ⟨g1.trans h1, g2.trans h2, g3.trans h3, g4.trans h4, g5.trans h5⟩
    · obtain ⟨g1, g2, g3, g4, g5⟩ := vecx_psg_env_reset_flags
        { envelope_volume { s with ecounter := 0 } with
          estep := ((envelope_volume { s with ecounter := 0 }).estep + 1) % 256
          eseg := 1 }
      exact ⟨g1.trans h1, g2.trans h2, g3.trans h3, g4.trans h4, g5.trans h5⟩
  · exact ⟨h1, h2, h3, h4, h5⟩

theorem clock_envelope_flags (s : psg_t) :
    (clock_envelope s).tdisable = s.tdisable ∧ (clock_envelope s).ndisable = s.ndisable ∧
    (clock_envelope s).tcounter = s.tcounter ∧ (clock_envelope s).sign = s.sign ∧
    (clock_envelope s).nshift = s.nshift := by
  unfold clock_envelope
  split
  · exact envelope_rollover_flags _
  · simp

/-- A chip cycle leaves the tone and noise disable flags alone. -/
theorem clock_flags (s : psg_t) :
    (clock s).tdisable = s.tdisable ∧ (clock s).ndisable = s.ndisable := by
  unfold clock
  simp only [List.foldl]
  obtain ⟨a1, a2, -, -⟩ := clock_tone_flags s 0
  obtain ⟨b1, b2, -, -⟩ := clock_tone_flags (clock_tone s 0) 1
  obtain ⟨c1, c2, -, -⟩ := clock_tone_flags (clock_tone (clock_tone s 0) 1) 2
  obtain ⟨d1, d2, -, -⟩ := clock_noise_flags (clock_tone (clock_tone (clock_tone s 0) 1) 2)
  obtain ⟨e1, e2, -, -, -⟩ :=
    clock_envelope_flags (clock_noise (clock_tone (clock_tone (clock_tone s 0) 1) 2))
  exact ⟨by rw [e1, d1, c1, b1, a1], by rw [e2, d2, c2, b2, a2]⟩

/-- The noise shift register after a chip cycle: shifted once when the noise counter
rolls over, unchanged otherwise. -/
theorem clock_nshift (s : psg_t) :
    (clock s).nshift =
      if s.nperiod <<< 1 ≤ (s.ncounter + 1) % 65536 then noise_shift s.nshift
      else s.nshift := by
  unfold clock
  simp only [List.foldl]
  obtain ⟨-, -, a3, a4⟩ := clock_tone_flags s 0
  obtain ⟨-, -, b3, b4⟩ := clock_tone_flags (clock_tone s 0) 1
  obtain ⟨-, -, c3, c4⟩ := clock_tone_flags (clock_tone (clock_tone s 0) 1) 2
  obtain ⟨-, -, -, a5, -⟩ := clock_tone_frame s 0
  obtain ⟨-, -, -, b5, -⟩ := clock_tone_frame (clock_tone s 0) 1
  obtain ⟨-, -, -, c5, -⟩ := clock_tone_frame (clock_tone (clock_tone s 0) 1) 2
  rw [(clock_envelope_flags _).2.2.2.2, clock_noise_nshift, c3, b3, a3, c4, b4, a4, c5, b5, a5]

/-! ## Call sequences -/

/-- What a successful call does to the chip. -/
theorem step_psg (c c1 : ctx) (op : Op) (hs : step c op = some c1) :
    (∃ r, op = Op.set_reg r ∧ c1.psg = vecx_psg_set_reg c.psg r) ∨
    (∃ v, ∃ h : c.psg.rlatch < 16, op = Op.wr v ∧
      c1.psg = wr_derive (store_reg c.psg ⟨c.psg.rlatch, h⟩ v) v) ∨
    (∃ v, op = Op.io_wr v ∧ c1.psg = vecx_psg_io_wr c.psg v) ∨
    (op = Op.exec ∧ c1.psg = clock c.psg) := by
  cases op with
  | set_reg r =>
    simp only [step, Option.some.injEq] at hs
    exact Or.inl ⟨r, rfl, by rw [← hs]⟩
  | wr v =>
    simp only [step, Option.map_eq_some'] at hs
    obtain ⟨s1, hw, rfl⟩ := hs
    by_cases h : c.psg.rlatch < 16
    · rw [vecx_psg_wr_eq _ _ h] at hw
      exact Or.inr (Or.inl ⟨v, h, rfl, (Option.some.inj hw).symm⟩)
    · simp [vecx_psg_wr, h] at hw
  | io_wr v =>
    simp only [step, Option.some.injEq] at hs
    exact Or.inr (Or.inr (Or.inl ⟨v, rfl, by rw [← hs]⟩))
  | exec =>
    simp only [step, Option.map_eq_some'] at hs
    obtain ⟨⟨c2, n⟩, he, rfl⟩ := hs
    exact Or.inr (Or.inr (Or.inr ⟨rfl, vecx_psg_exec_psg _ _ _ he⟩))

/-- A property of the chip that every kind of call keeps holds after a sequence of
calls. -/
theorem run_invariant (P : psg_t → Prop)
    (h_set : ∀ s r, P s → P (vecx_psg_set_reg s r))
    (h_wr : ∀ s v (h : s.rlatch < 16), v < 256 → P s →
      P (wr_derive (store_reg s ⟨s.rlatch, h⟩ v) v))
    (h_io : ∀ s v, v < 256 → P s → P (vecx_psg_io_wr s v))
    (h_clock : ∀ s, P s → P (clock s))
    (ops : List Op) (c c1 : ctx) (hok : ∀ op ∈ ops, op.ok = true)
    (hrun : run ops c = some c1) (h : P c.psg) : P c1.psg := by
  induction ops generalizing c with
  | nil =>
    simp only [run, Option.some.injEq] at hrun
    exact hrun ▸ h
  | cons op ops ih =>
    simp only [run, Option.bind_eq_some] at hrun
    obtain ⟨c2, hstep, hrest⟩ := hrun
    have hop : op.ok = true := hok op (List.mem_cons_self _ _)
    refine ih c2 (fun o ho => hok o (List.mem_cons_of_mem _ ho)) hrest ?_
    rcases step_psg c c2 op hstep with ⟨r, -, h2⟩ | ⟨v, hl, rfl, h2⟩ | ⟨v, rfl, h2⟩ | ⟨-, h2⟩
    · rw [h2]; exact h_set _ r h
    · rw [h2]; exact h_wr _ v hl (by simpa [Op.ok] using hop) h
    · rw [h2]; exact h_io _ v (by simpa [Op.ok] using hop) h
    · rw [h2]; exact h_clock _ h

/-- Every register of a state reached from `vecx_psg_init` through the register
interface holds a value masked by its entry of `dcmask`. -/
theorem run_reg_masked (ops : List Op) (c1 : ctx) (b : Option (Nat → Int)) (pos : Nat)
    (hok : ∀ op ∈ ops, op.ok = true)
    (hrun : run ops ⟨vecx_psg_init psg_static, b, pos⟩ = some c1) :
    ∀ k, c1.psg.reg k ≤ dcmask k := by
  refine run_invariant (fun s => ∀ k, s.reg k ≤ dcmask k) ?_ ?_ ?_ ?_ ops _ c1 hok hrun ?_
  · intro s r h; exact h
  · intro s v hl _ h k
    rw [wr_derive_reg]
    show Function.update s.reg ⟨s.rlatch, hl⟩ (v &&& dcmask ⟨s.rlatch, hl⟩) k ≤ dcmask k
    by_cases hk : k = ⟨s.rlatch, hl⟩
    · rw [hk, Function.update_same]
      exact Nat.and_le_right
    · rw [Function.update_noteq hk]
      exact h k
  · intro s v hv h k
    show Function.update s.reg 14 v k ≤ dcmask k
    by_cases hk : k = 14
    · rw [hk, Function.update_same]
      have hd : dcmask 14 = 255 := rfl
      omega
    · rw [Function.update_noteq hk]
      exact h k
  · intro s h k
    rw [(clock_frame s).1]
    exact h k
  · show ∀ k, (vecx_psg_init psg_static).reg k ≤ dcmask k
    decide

/-! ## Noise shift register -/

/-- The shift-register update in arithmetic, on 17-bit values. -/
theorem noise_shift_eq (x : Nat) (hx : x < 131072) :
    noise_shift x = x / 2 + ((x + x / 8) % 2) * 65536 := by
  unfold noise_shift
  rw [Nat.shiftRight_eq_div_pow, Nat.shiftRight_eq_div_pow, Nat.and_one_is_mod,
    Nat.xor_mod_two_eq, Nat.shiftLeft_eq, Nat.lor_comm]
  have h := Nat.mul_add_lt_is_or (show x / 2 ^ 1 < 2 ^ 16 by omega) ((x + x / 2 ^ 3) % 2)
  rw [Nat.mul_comm] at h
  rw [← h]
  omega

theorem noise_shift_lt (x : Nat) (hx : x < 131072) : noise_shift x < 131072 := by
  rw [noise_shift_eq x hx]; omega

theorem noise_shift_ne_zero (x : Nat) (hx : x < 131072) (h0 : x ≠ 0) :
    noise_shift x ≠ 0 := by
  rw [noise_shift_eq x hx]
  by_cases h1 : x = 1
  · subst h1; decide
  · have h2 : 1 ≤ x / 2 := by omega
    omega

theorem noise_shift_inj (x y : Nat) (hx : x < 131072) (hy : y < 131072)
    (h : noise_shift x = noise_shift y) : x = y := by
  rw [noise_shift_eq x hx, noise_shift_eq y hy] at h
  have hx8 : x / 8 = x / 2 / 4 := by omega
  have hy8 : y / 8 = y / 2 / 4 := by omega
  have hx2 : x / 2 < 65536 := by omega
  have hy2 : y / 2 < 65536 := by omega
  have hbx : (x + x / 8) % 2 < 2 := Nat.mod_lt _ (by decide)
  have hby : (y + y / 8) % 2 < 2 := Nat.mod_lt _ (by decide)
  have h1 : x / 2 = y / 2 ∧ (x + x / 8) % 2 = (y + y / 8) % 2 := by
    generalize (x + x / 8) % 2 = bx at h hbx
    generalize (y + y / 8) % 2 = b at h hby
    omega
  obtain ⟨ha, hb⟩ := h1
  rw [hx8, hy8, ha] at hb
  omega

theorem wr_derive_nshift (s : psg_t) (v : Nat) : (wr_derive s v).nshift = s.nshift := by
  unfold wr_derive
  split <;> simp only [set_tperiod, (vecx_psg_env_reset_flags _).2.2.2.2]
  split <;> rfl

/-- The shift register stays a non-zero 17-bit value under a chip cycle. -/
theorem clock_nshift_range (s : psg_t) (h : s.nshift ≠ 0 ∧ s.nshift < 131072) :
    (clock s).nshift ≠ 0 ∧ (clock s).nshift < 131072 := by
  rw [clock_nshift]
  split
  · exact ⟨noise_shift_ne_zero _ h.2 h.1, noise_shift_lt _ h.2⟩
  · exact h

/-- C12: in every state reached from `vecx_psg_init` by calls of `vecx_psg_set_reg`
(index 0..15), `vecx_psg_wr`, `vecx_psg_io_wr` and `vecx_psg_exec`, the noise shift
register `nshift` is non-zero and less than `2^17`. -/
theorem C12_nshift_nonzero (c : ctx) (ops : List Op) (c1 : ctx)
    (hok : ∀ op ∈ ops, op.ok = true)
    (hrun : run ops { c with psg := vecx_psg_init c.psg } = some c1) :
    c1.psg.nshift ≠ 0 ∧ c1.psg.nshift < 2 ^ 17 := by
  refine run_invariant (fun s => s.nshift ≠ 0 ∧ s.nshift < 2 ^ 17) ?_ ?_ ?_ ?_ ops _ c1 hok hrun
    (show (1 : Nat) ≠ 0 ∧ 1 < 2 ^ 17 from ⟨by decide, by decide⟩)
  · intro s r h; exact h
  · intro s v hl _ h
    show (wr_derive _ v).nshift ≠ 0 ∧ (wr_derive _ v).nshift < 2 ^ 17
    rw [wr_derive_nshift]; exact h
  · intro s v _ h; exact h
  · intro s h; exact clock_nshift_range s h

theorem C12_nshift_nonzero_witness :
    (clock (vecx_psg_init psg_static)).nshift ≠ 0 ∧
      (clock (vecx_psg_init psg_static)).nshift < 2 ^ 17 :=
  C12_nshift_nonzero ⟨psg_static, some fun _ => 0, 0⟩ [Op.exec]
    ⟨clock (vecx_psg_init psg_static), some (Function.update (fun _ => 0) 0 0), 1⟩
    (by decide) rfl

theorem noise_shift_iterate_range (k : Nat) :
    noise_shift^[k] 1 ≠ 0 ∧ noise_shift^[k] 1 < 131072 := by
  induction k with
  | zero => exact ⟨by decide, by decide⟩
  | succ k ih =>
    rw [Function.iterate_succ_apply']
    exact ⟨noise_shift_ne_zero _ ih.2 ih.1, noise_shift_lt _ ih.2⟩

theorem noise_shift_iterate_inj (k a b : Nat) (ha : a < 131072) (hb : b < 131072)
    (h : noise_shift^[k] a = noise_shift^[k] b) : a = b := by
  induction k generalizing a b with
  | zero => exact h
  | succ k ih =>
    rw [Function.iterate_succ_apply, Function.iterate_succ_apply] at h
    exact noise_shift_inj a b ha hb
      (ih _ _ (noise_shift_lt a ha) (noise_shift_lt b hb) h)

/-- Two equal points of the orbit of the seed give a return to the seed. -/
theorem noise_shift_return (i j : Nat) (hij : i < j)
    (h : noise_shift^[i] 1 = noise_shift^[j] 1) : noise_shift^[j - i] 1 = 1 := by
  have hj : j = i + (j - i) := by omega
  rw [hj, Function.iterate_add_apply] at h
  exact (noise_shift_iterate_inj i 1 _ (by decide) (noise_shift_iterate_range _).2 h).symm

/-- C20: the noise shift-register update
`f(x) = (x >> 1) | (((x XOR (x >> 3)) AND 1) << 16)` is injective on 17-bit values, and
the sequence of shift-register values from the seed 1 is purely periodic: some `n`
with `1 ≤ n ≤ 2^17 - 1` has `f^n(1) = 1`. -/
theorem C20_noise_shift_periodic :
    (∀ x y, x < 2 ^ 17 → y < 2 ^ 17 → noise_shift x = noise_shift y → x = y) ∧
    ∃ n, 1 ≤ n ∧ n ≤ 2 ^ 17 - 1 ∧ noise_shift^[n] 1 = 1 := by
  refine ⟨fun x y hx hy h => noise_shift_inj x y hx hy h, ?_⟩
  have hc : (Finset.Ico 1 131072).card < (Finset.range 131072).card := by
    rw [Nat.card_Ico, Finset.card_range]; decide
  obtain ⟨i, hi, j, hj, hne, heq⟩ := Finset.exists_ne_map_eq_of_card_lt_of_maps_to hc
    (f := fun k => noise_shift^[k] 1) (fun k _ => by
      have := noise_shift_iterate_range k
      exact Finset.mem_Ico.2 ⟨Nat.pos_of_ne_zero this.1, this.2⟩)
  rw [Finset.mem_range] at hi hj
  rcases Nat.lt_or_gt_of_ne hne with hlt | hgt
  · exact ⟨j - i, by omega, by omega, noise_shift_return i j hlt heq⟩
  · exact ⟨i - j, by omega, by omega, noise_shift_return j i hgt heq.symm⟩

/-! ## Envelope shape write and cached flags -/

/-- C14: for every state and every `v`, after selecting register 13 and writing `v`:
`reg[13] = v AND 0x0f`, `ecounter = 0`, `eseg = 0`, `estep = 0`, and `evol` is 0 if
bit 0x04 (Attack) of the stored shape is set and 15 otherwise; the write leaves
every field other than `reg[13]`, `ecounter`, `eseg`, `estep` and `evol` unchanged:
the latch is the one the select set, and every other register and field is as it
was before the select. -/
theorem C14_shape_write (s : psg_t) (v : Nat) :
    ∃ s1, vecx_psg_wr (vecx_psg_set_reg s 13) v = some s1 ∧
      s1.reg 13 = v &&& 0x0f ∧ s1.ecounter = 0 ∧ s1.eseg = 0 ∧ s1.estep = 0 ∧
      s1.evol = (if s1.reg 13 &&& 0x04 ≠ 0 then 0 else 15) ∧
      s1.rlatch = (vecx_psg_set_reg s 13).rlatch ∧ (∀ r, r ≠ 13 → s1.reg r = s.reg r) ∧
      s1.tperiod = s.tperiod ∧ s1.tcounter = s.tcounter ∧ s1.amplitude = s.amplitude ∧
      s1.nperiod = s.nperiod ∧ s1.ncounter = s.ncounter ∧ s1.nshift = s.nshift ∧
      s1.eperiod = s.eperiod ∧ s1.tdisable = s.tdisable ∧ s1.ndisable = s.ndisable ∧
      s1.emode = s.emode ∧ s1.sign = s.sign := by
  have hl : (vecx_psg_set_reg s 13).rlatch < 16 := show 13 < 16 by decide
  refine ⟨_, vecx_psg_wr_eq _ _ hl, ?_⟩
  have hd : wr_derive (store_reg (vecx_psg_set_reg s 13) ⟨(vecx_psg_set_reg s 13).rlatch, hl⟩ v) v
      = vecx_psg_env_reset { store_reg (vecx_psg_set_reg s 13) 13 v with
          ecounter := 0, eseg := 0 } := rfl
  rw [hd]
  have h13 : (vecx_psg_env_reset { store_reg (vecx_psg_set_reg s 13) 13 v with
      ecounter := 0, eseg := 0 }).reg 13 = v &&& 0x0f := by
    rw [(vecx_psg_env_reset_frame _).1]
    show Function.update s.reg 13 (v &&& dcmask 13) 13 = v &&& 0x0f
    rw [Function.update_same]; rfl
  refine ⟨h13, ?_, ?_, ?_, ?_, ?_, ?_, ?_, ?_, ?_, ?_, ?_, ?_, ?_, ?_, ?_, ?_, ?_⟩
  · exact (vecx_psg_env_reset_frame _).2.2.2.2.2.1
  · exact (vecx_psg_env_reset_frame _).2.2.2.2.2.2.1
  · exact (vecx_psg_env_reset_frame _).2.2.2.2.2.2.2.1
  · simp [vecx_psg_env_reset]
  · exact (vecx_psg_env_reset_frame _).2.1
  · intro r hr
    rw [(vecx_psg_env_reset_frame _).1]
    exact Function.update_noteq hr _ _
  all_goals simp [vecx_psg_env_reset, store_reg, vecx_psg_set_reg]

theorem wr_derive_tdisable (s : psg_t) (v : Nat) (i : Fin 3) :
    (wr_derive s v).tdisable i =
      (if s.rlatch = 7 then (s.reg 7 >>> i.val) &&& 1 else s.tdisable i) ∧
    (wr_derive s v).ndisable i =
      (if s.rlatch = 7 then (s.reg 7 >>> (3 + i.val)) &&& 1 else s.ndisable i) := by
  unfold wr_derive
  split <;> simp_all [set_tperiod, (vecx_psg_env_reset_flags _).1,
    (vecx_psg_env_reset_flags _).2.1]
  split <;> simp

theorem wr_derive_amplitude (s : psg_t) (v : Nat) (i : Fin 3) :
    (wr_derive s v).amplitude i =
      (if s.rlatch = 8 + i.val then v &&& 0x0f else s.amplitude i) ∧
    (wr_derive s v).emode i =
      (if s.rlatch = 8 + i.val then (v >>> 4) &&& 1 else s.emode i) := by
  obtain ⟨-, -, -, -, -, -, -, -, r9, r10⟩ :=
    vecx_psg_env_reset_frame { s with ecounter := 0, eseg := 0 }
  unfold wr_derive
  split <;> fin_cases i <;> simp_all [set_tperiod]
  all_goals split <;> simp

theorem wr_derive_eperiod (s : psg_t) (v : Nat) :
    (wr_derive s v).eperiod =
      if s.rlatch = 11 ∨ s.rlatch = 12 then (s.reg 11 ||| (s.reg 12 <<< 8)) % 65536
      else s.eperiod := by
  unfold wr_derive
  split <;> simp_all [set_tperiod, (vecx_psg_env_reset_frame _).2.2.2.2.1]
  split <;> simp

theorem and_31_and_15 (v : Nat) : (v &&& 31) &&& 15 = v &&& 15 := by
  rw [Nat.and_assoc]; rfl

theorem and_31_bit4 (v : Nat) : ((v &&& 31) >>> 4) &&& 1 = (v >>> 4) &&& 1 := by
  have h : v &&& 31 = v % 2 ^ 5 := Nat.and_pow_two_sub_one_eq_mod v 5
  rw [h, Nat.shiftRight_eq_div_pow, Nat.shiftRight_eq_div_pow, Nat.and_one_is_mod,
    Nat.and_one_is_mod]
  omega

theorem store_reg_masked (s : psg_t) (l : Fin 16) (v : Nat) (hm : ∀ r, s.reg r ≤ dcmask r) :
    ∀ r, (store_reg s l v).reg r ≤ dcmask r := by
  intro r
  show Function.update s.reg l (v &&& dcmask l) r ≤ dcmask r
  by_cases hr : r = l
  · rw [hr, Function.update_same]; exact Nat.and_le_right
  · rw [Function.update_noteq hr]; exact hm r

theorem store_reg_other (s : psg_t) (l r : Fin 16) (v : Nat) (h : r.val ≠ l.val) :
    (store_reg s l v).reg r = s.reg r :=
  Function.update_noteq (fun hc => h (congrArg Fin.val hc)) _ _

theorem vecx_psg_io_wr_reg_other (s : psg_t) (v : Nat) (r : Fin 16) (h : r ≠ 14) :
    (vecx_psg_io_wr s v).reg r = s.reg r := by
  show Function.update s.reg 14 v r = s.reg r
  exact Function.update_noteq h _ _

/-- A register write keeps the masked registers and the cached flags in agreement. -/
theorem wr_flags_inv (s : psg_t) (v : Nat) (h : s.rlatch < 16)
    (hm : ∀ r, s.reg r ≤ dcmask r) (hf : flags_inv s) :
    flags_inv (wr_derive (store_reg s ⟨s.rlatch, h⟩ v) v) := by
  have hm1 := store_reg_masked s ⟨s.rlatch, h⟩ v hm
  have hl : (store_reg s ⟨s.rlatch, h⟩ v).rlatch = s.rlatch := rfl
  obtain ⟨hfl, hep⟩ := hf
  refine ⟨fun i => ?_, ?_⟩
  · obtain ⟨h1, h2, h3, h4⟩ := hfl i
    obtain ⟨t1, t2⟩ := wr_derive_tdisable (store_reg s ⟨s.rlatch, h⟩ v) v i
    obtain ⟨a1, a2⟩ := wr_derive_amplitude (store_reg s ⟨s.rlatch, h⟩ v) v i
    rw [t1, t2, a1, a2, wr_derive_reg, hl]
    refine ⟨?_, ?_, ?_, ?_⟩
    · split
      · rfl
      · rename_i hc
        rw [store_reg_other s _ 7 v (fun hh => hc hh.symm)]; exact h1
    · split
      · rfl
      · rename_i hc
        rw [store_reg_other s _ 7 v (fun hh => hc hh.symm)]; exact h2
    · split
      · rename_i hc
        have he : (⟨s.rlatch, h⟩ : Fin 16) = amp_reg i := Fin.ext hc
        rw [he]
        show v &&& 15 = Function.update s.reg (amp_reg i) (v &&& dcmask (amp_reg i)) _ &&& 15
        rw [Function.update_same]
        have hd : dcmask (amp_reg i) = 31 := by fin_cases i <;> rfl
        rw [hd, and_31_and_15]
      · rename_i hc
        rw [store_reg_other s _ (amp_reg i) v (fun hh => hc hh.symm)]; exact h3
    · split
      · rename_i hc
        have he : (⟨s.rlatch, h⟩ : Fin 16) = amp_reg i := Fin.ext hc
        rw [he]
        show (v >>> 4) &&& 1 =
          (Function.update s.reg (amp_reg i) (v &&& dcmask (amp_reg i)) _ >>> 4) &&& 1
        rw [Function.update_same]
        have hd : dcmask (amp_reg i) = 31 := by fin_cases i <;> rfl
        rw [hd, and_31_bit4]
      · rename_i hc
        rw [store_reg_other s _ (amp_reg i) v (fun hh => hc hh.symm)]; exact h4
  · rw [wr_derive_eperiod, wr_derive_reg, hl]
    split
    · have h11 : (store_reg s ⟨s.rlatch, h⟩ v).reg 11 < 256 :=
        Nat.lt_succ_of_le (hm1 11)
      have h12 : (store_reg s ⟨s.rlatch, h⟩ v).reg 12 < 256 :=
        Nat.lt_succ_of_le (hm1 12)
      exact Nat.mod_eq_of_lt (or_shl8_lt _ _ h11 h12)
    · rename_i hc
      rw [store_reg_other s _ 11 v (fun hh => hc (Or.inl hh.symm)),
        store_reg_other s _ 12 v (fun hh => hc (Or.inr hh.symm))]
      exact hep

/-- C15: in every state reached from `vecx_psg_init` by calls of `vecx_psg_set_reg`
(index 0..15), `vecx_psg_wr`, `vecx_psg_io_wr` and `vecx_psg_exec`, the cached flags
agree with the registers: `tdisable[i]` is bit `i` of `reg[7]`, `ndisable[i]` is bit
`3+i` of `reg[7]`, `amplitude[i] = reg[8+i] AND 0x0f`, `emode[i]` is bit 4 of
`reg[8+i]`, and `eperiod = reg[11] | (reg[12] << 8)`. -/
theorem C15_cached_flags (c : ctx) (ops : List Op) (c1 : ctx)
    (hok : ∀ op ∈ ops, op.ok = true)
    (hrun : run ops { c with psg := vecx_psg_init c.psg } = some c1) :
    (∀ i : Fin 3,
      c1.psg.tdisable i = (c1.psg.reg 7 >>> i.val) &&& 1 ∧
      c1.psg.ndisable i = (c1.psg.reg 7 >>> (3 + i.val)) &&& 1 ∧
      c1.psg.amplitude i = c1.psg.reg (amp_reg i) &&& 0x0f ∧
      c1.psg.emode i = (c1.psg.reg (amp_reg i) >>> 4) &&& 1) ∧
    c1.psg.eperiod = c1.psg.reg 11 ||| (c1.psg.reg 12 <<< 8) := by
  have h := run_invariant (fun s => (∀ r, s.reg r ≤ dcmask r) ∧ flags_inv s)
    ?_ ?_ ?_ ?_ ops _ c1 hok hrun ?_
  · exact h.2
  · intro s r h; exact h
  · intro s v hl _ h
    refine ⟨?_, wr_flags_inv s v hl h.1 h.2⟩
    intro r; rw [wr_derive_reg]; exact store_reg_masked s _ v h.1 r
  · intro s v hv h
    refine ⟨?_, ?_⟩
    · intro r
      show Function.update s.reg 14 v r ≤ dcmask r
      by_cases hr : r = 14
      · rw [hr, Function.update_same]
        show v ≤ 255
        omega
      · rw [Function.update_noteq hr]; exact h.1 r
    · obtain ⟨hfl, hep⟩ := h.2
      refine ⟨fun i => ?_, ?_⟩
      · have h7 := vecx_psg_io_wr_reg_other s v 7 (by decide)
        have ha := vecx_psg_io_wr_reg_other s v (amp_reg i) (by fin_cases i <;> decide)
        rw [h7, ha]; exact hfl i
      · have h11 := vecx_psg_io_wr_reg_other s v 11 (by decide)
        have h12 := vecx_psg_io_wr_reg_other s v 12 (by decide)
        rw [h11, h12]; exact hep
  · intro s h
    obtain ⟨f1, -, -, -, f5, f6, f7⟩ := clock_frame s
    obtain ⟨g1, g2⟩ := clock_flags s
    unfold flags_inv
    rw [f1, f5, f6, f7, g1, g2]
    exact h
  · refine ⟨(vecx_psg_init_period_inv c.psg).1, ?_⟩
    show flags_inv (vecx_psg_init psg_static)
    unfold flags_inv
    decide

theorem C15_cached_flags_witness :
    (∀ i : Fin 3,
      (wr_derive (store_reg (vecx_psg_set_reg (vecx_psg_init psg_static) 8) 8 0x1f)
        0x1f).tdisable i =
        ((wr_derive (store_reg (vecx_psg_set_reg (vecx_psg_init psg_static) 8) 8 0x1f)
          0x1f).reg 7 >>> i.val) &&& 1 ∧
      (wr_derive (store_reg (vecx_psg_set_reg (vecx_psg_init psg_static) 8) 8 0x1f)
        0x1f).ndisable i =
        ((wr_derive (store_reg (vecx_psg_set_reg (vecx_psg_init psg_static) 8) 8 0x1f)
          0x1f).reg 7 >>> (3 + i.val)) &&& 1 ∧
      (wr_derive (store_reg (vecx_psg_set_reg (vecx_psg_init psg_static) 8) 8 0x1f)
        0x1f).amplitude i =
        (wr_derive (store_reg (vecx_psg_set_reg (vecx_psg_init psg_static) 8) 8 0x1f)
          0x1f).reg (amp_reg i) &&& 0x0f ∧
      (wr_derive (store_reg (vecx_psg_set_reg (vecx_psg_init psg_static) 8) 8 0x1f)
        0x1f).emode i =
        ((wr_derive (store_reg (vecx_psg_set_reg (vecx_psg_init psg_static) 8) 8 0x1f)
          0x1f).reg (amp_reg i) >>> 4) &&& 1) ∧
    (wr_derive (store_reg (vecx_psg_set_reg (vecx_psg_init psg_static) 8) 8 0x1f)
      0x1f).eperiod =
      (wr_derive (store_reg (vecx_psg_set_reg (vecx_psg_init psg_static) 8) 8 0x1f)
        0x1f).reg 11 |||
      ((wr_derive (store_reg (vecx_psg_set_reg (vecx_psg_init psg_static) 8) 8 0x1f)
        0x1f).reg 12 <<< 8) :=
  C15_cached_flags ⟨psg_static, none, 0⟩ [Op.set_reg 8, Op.wr 0x1f]
    ⟨wr_derive (store_reg (vecx_psg_set_reg (vecx_psg_init psg_static) 8) 8 0x1f) 0x1f, none, 0⟩
    (by decide) rfl

/-! ## Tone counters -/

/-- The counter and phase of channel `i` after one chip cycle. -/
theorem clock_tone_chan (s : psg_t) (i : Fin 3) :
    (clock s).tcounter i =
      (if s.tperiod i ≤ (s.tcounter i + 1) % 65536 then 0 else (s.tcounter i + 1) % 65536) ∧
    (clock s).sign i =
      (if s.tperiod i ≤ (s.tcounter i + 1) % 65536 then s.sign i ^^^ 1 else s.sign i) := by
  unfold clock
  simp only [List.foldl]
  rw [(clock_envelope_flags _).2.2.1, (clock_envelope_flags _).2.2.2.1,
    (clock_noise_flags _).2.2.1, (clock_noise_flags _).2.2.2]
  fin_cases i
  · show (clock_tone (clock_tone (clock_tone s 0) 1) 2).tcounter 0 = _ ∧
      (clock_tone (clock_tone (clock_tone s 0) 1) 2).sign 0 = _
    rw [(clock_tone_other _ 2 0 (by decide)).1, (clock_tone_other _ 2 0 (by decide)).2,
      (clock_tone_other _ 1 0 (by decide)).1, (clock_tone_other _ 1 0 (by decide)).2]
    exact clock_tone_self s 0
  · show (clock_tone (clock_tone (clock_tone s 0) 1) 2).tcounter 1 = _ ∧
      (clock_tone (clock_tone (clock_tone s 0) 1) 2).sign 1 = _
    rw [(clock_tone_other _ 2 1 (by decide)).1, (clock_tone_other _ 2 1 (by decide)).2]
    have h := clock_tone_self (clock_tone s 0) 1
    rw [(clock_tone_frame s 0).2.2.1, (clock_tone_other s 0 1 (by decide)).1,
      (clock_tone_other s 0 1 (by decide)).2] at h
    exact h
  · show (clock_tone (clock_tone (clock_tone s 0) 1) 2).tcounter 2 = _ ∧
      (clock_tone (clock_tone (clock_tone s 0) 1) 2).sign 2 = _
    have h := clock_tone_self (clock_tone (clock_tone s 0) 1) 2
    rw [(clock_tone_frame (clock_tone s 0) 1).2.2.1, (clock_tone_frame s 0).2.2.1,
      (clock_tone_other (clock_tone s 0) 1 2 (by decide)).1,
      (clock_tone_other (clock_tone s 0) 1 2 (by decide)).2,
      (clock_tone_other s 0 2 (by decide)).1, (clock_tone_other s 0 2 (by decide)).2] at h
    exact h

/-- Quotient and remainder of `n + 1` from those of `n`. -/
theorem succ_div_mod (n p : Nat) (hp : 0 < p) :
    (p ≤ n % p + 1 → (n + 1) % p = 0 ∧ (n + 1) / p = n / p + 1) ∧
    (¬ p ≤ n % p + 1 → (n + 1) % p = n % p + 1 ∧ (n + 1) / p = n / p) := by
  have h1 := Nat.div_add_mod n p
  have h2 := Nat.mod_lt n hp
  constructor
  · intro h
    have h3 : n + 1 = p * (n / p + 1) := by rw [Nat.mul_succ]; omega
    rw [h3]
    exact ⟨Nat.mul_mod_right _ _, Nat.mul_div_cancel_left _ hp⟩
  · intro h
    have h3 : n + 1 = p * (n / p) + (n % p + 1) := by omega
    have h4 : n % p + 1 < p := by omega
    constructor
    · conv_lhs => rw [h3]
      rw [Nat.mul_add_mod, Nat.mod_eq_of_lt h4]
    · conv_lhs => rw [h3]
      rw [Nat.mul_add_div hp, Nat.div_eq_of_lt h4, Nat.add_zero]

theorem xor_parity_succ (a q : Nat) : (a ^^^ (q % 2)) ^^^ 1 = a ^^^ ((q + 1) % 2) := by
  rw [Nat.xor_assoc]
  rcases Nat.mod_two_eq_zero_or_one q with h | h
  · have h2 : (q + 1) % 2 = 1 := by omega
    rw [h, h2]; rfl
  · have h2 : (q + 1) % 2 = 0 := by omega
    rw [h, h2]; rfl

/-- The counter and phase of channel `i` after `n` chip cycles from counter 0. -/
theorem iterate_clock_tone (n : Nat) (s : psg_t) (i : Fin 3) (p : Nat) (hp1 : 1 ≤ p)
    (hp2 : p ≤ 4095) (htp : s.tperiod i = p) (htc : s.tcounter i = 0) :
    (clock^[n] s).tperiod i = p ∧ (clock^[n] s).tcounter i = n % p ∧
    (clock^[n] s).sign i = s.sign i ^^^ ((n / p) % 2) := by
  induction n with
  | zero =>
    refine ⟨htp, ?_, ?_⟩
    · simpa using htc
    · simp
  | succ n ih =>
    obtain ⟨h1, h2, h3⟩ := ih
    rw [Function.iterate_succ_apply']
    obtain ⟨c1, c2⟩ := clock_tone_chan (clock^[n] s) i
    have hlt : n % p < p := Nat.mod_lt n (by omega)
    have hm : (n % p + 1) % 65536 = n % p + 1 := Nat.mod_eq_of_lt (by omega)
    obtain ⟨d1, d2⟩ := succ_div_mod n p (by omega)
    refine ⟨by rw [(clock_frame _).2.2.1]; exact h1, ?_, ?_⟩
    · rw [c1, h1, h2, hm]
      split
      · rename_i hc; exact (d1 hc).1.symm
      · rename_i hc; exact (d2 hc).1.symm
    · rw [c2, h1, h2, h3, hm]
      split
      · rename_i hc
        rw [(d1 hc).2]
        exact xor_parity_succ _ _
      · rename_i hc
        rw [(d2 hc).2]

/-- The chip after `n` successful calls of `vecx_psg_exec` is the chip after `n` chip
cycles. -/
theorem exec_samples_psg (n : Nat) (s : psg_t) (b : Nat → Int) (p : Nat)
    (r : List Int × ctx) (hr : exec_samples n ⟨s, some b, p⟩ = some r) :
    r.2.psg = clock^[n] s := by
  have h := exec_samples_eq n s b p
  rw [hr] at h
  cases hm : mix_run n s with
  | none => rw [hm] at h; simp at h
  | some l =>
    rw [hm] at h
    simp only [Option.map_some', Option.some.injEq, Prod.mk.injEq] at h
    exact h.2

/-- C16: for every channel `i`, every tone period `p` in 1..4095 and every `n`, from
a state with `tperiod[i] = p` and `tcounter[i] = 0`, after `n` calls of
`vecx_psg_exec` with no register write in between, `tcounter[i] = n mod p` and
`sign[i]` is the initial `sign[i]` XOR `floor(n/p) mod 2`: the phase flips once every
`p` cycles and the counter stays strictly below the period. -/
theorem C16_tone_counter (s : psg_t) (b : Nat → Int) (cur : Nat) (i : Fin 3) (p n : Nat)
    (hp1 : 1 ≤ p) (hp2 : p ≤ 4095) (htp : s.tperiod i = p) (htc : s.tcounter i = 0) :
    ((clock^[n] s).tcounter i = n % p ∧
      (clock^[n] s).sign i = s.sign i ^^^ ((n / p) % 2) ∧
      (clock^[n] s).tcounter i < p) ∧
    ∀ r, exec_samples n ⟨s, some b, cur⟩ = some r →
      r.2.psg.tcounter i = n % p ∧ r.2.psg.sign i = s.sign i ^^^ ((n / p) % 2) ∧
      r.2.psg.tcounter i < p := by
  obtain ⟨-, h2, h3⟩ := iterate_clock_tone n s i p hp1 hp2 htp htc
  have h4 : (clock^[n] s).tcounter i < p := by rw [h2]; exact Nat.mod_lt n (by omega)
  refine ⟨⟨h2, h3, h4⟩, ?_⟩
  intro r hr
  rw [exec_samples_psg n s b cur r hr]
  exact ⟨h2, h3, h4⟩

theorem C16_tone_counter_witness :
    ((clock^[6] (wr_derive (store_reg (vecx_psg_set_reg (vecx_psg_init psg_static) 0) 0 4)
        4)).tcounter 0 = 6 % 4 ∧
      (clock^[6] (wr_derive (store_reg (vecx_psg_set_reg (vecx_psg_init psg_static) 0) 0 4)
        4)).sign 0 =
        (wr_derive (store_reg (vecx_psg_set_reg (vecx_psg_init psg_static) 0) 0 4)
          4).sign 0 ^^^ ((6 / 4) % 2) ∧
      (clock^[6] (wr_derive (store_reg (vecx_psg_set_reg (vecx_psg_init psg_static) 0) 0 4)
        4)).tcounter 0 < 4) ∧
    ∀ r, exec_samples 6
        ⟨wr_derive (store_reg (vecx_psg_set_reg (vecx_psg_init psg_static) 0) 0 4) 4,
          some fun _ => 0, 0⟩ = some r →
      r.2.psg.tcounter 0 = 6 % 4 ∧
      r.2.psg.sign 0 =
        (wr_derive (store_reg (vecx_psg_set_reg (vecx_psg_init psg_static) 0) 0 4)
          4).sign 0 ^^^ ((6 / 4) % 2) ∧
      r.2.psg.tcounter 0 < 4 :=
  C16_tone_counter
    (wr_derive (store_reg (vecx_psg_set_reg (vecx_psg_init psg_static) 0) 0 4) 4)
    (fun _ => 0) 0 0 4 6 (by decide) (by decide) rfl rfl

/-! ## Envelope volume -/

theorem vecx_psg_env_reset_evol (s : psg_t) :
    (vecx_psg_env_reset s).evol =
      if s.eseg ≠ 0 then
        (if s.reg 13 = 8 ∨ s.reg 13 = 11 ∨ s.reg 13 = 13 ∨ s.reg 13 = 14 then 15 else 0)
      else (if s.reg 13 &&& 0x04 ≠ 0 then 0 else 15) := by
  unfold vecx_psg_env_reset
  simp only
  by_cases h : s.eseg = 0
  · simp [h]
  · simp only [ne_eq, h, not_false_eq_true, if_true]
    split <;> simp_all

theorem envelope_volume_evol (s : psg_t) :
    (envelope_volume s).evol =
      if s.estep ≠ 0 then
        if s.eseg ≠ 0 then
          if s.reg 13 = 10 ∨ s.reg 13 = 12 then (s.evol + 1) % 256
          else if s.reg 13 = 8 ∨ s.reg 13 = 14 then (s.evol + 255) % 256
          else s.evol
        else
          if s.reg 13 &&& 0x04 ≠ 0 then (s.evol + 1) % 256 else (s.evol + 255) % 256
      else s.evol := by
  unfold envelope_volume
  repeat' split
  all_goals rfl

theorem envelope_rollover_evol (s : psg_t) :
    (envelope_rollover s).evol =
      if (s.estep + 1) % 256 ≥ 16 then
        if (if s.reg 13 &&& 0x09 = 0x08 then s.eseg ^^^ 1 else 1) ≠ 0 then
          (if s.reg 13 = 8 ∨ s.reg 13 = 11 ∨ s.reg 13 = 13 ∨ s.reg 13 = 14 then 15 else 0)
        else (if s.reg 13 &&& 0x04 ≠ 0 then 0 else 15)
      else (envelope_volume { s with ecounter := 0 }).evol := by
  obtain ⟨h1, -, -, -, -, -, h7, h8, -⟩ := envelope_volume_frame { s with ecounter := 0 }
  unfold envelope_rollover
  simp only [h8, h1, h7]
  split
  · rw [vecx_psg_env_reset_evol]
    split <;> simp [h1]
  · rfl

theorem xor_one_le (a : Nat) (h : a ≤ 1) : a ^^^ 1 ≤ 1 ∧ (a ^^^ 1 = 0 ↔ a = 1) := by
  interval_cases a <;> decide

/-- An envelope step keeps the envelope fields in step with the shape. -/
theorem envelope_rollover_env_wf (s : psg_t) (h : env_wf s) : env_wf (envelope_rollover s) := by
  obtain ⟨h13, hseg, hstep, hvol⟩ := h
  have hB := shape_alternates (s.reg 13) (by omega)
  have hx := xor_one_le s.eseg hseg
  refine ⟨(envelope_rollover_frame s).1 ▸ h13, ?_, ?_, ?_⟩
  · rw [envelope_rollover_eseg]
    split
    · split
      · exact hx.1
      · exact Nat.le_refl 1
    · exact hseg
  · rw [envelope_rollover_estep]
    split <;> omega
  · rw [envelope_rollover_evol, envelope_rollover_eseg, envelope_rollover_estep,
      (envelope_rollover_frame s).1, envelope_volume_evol]
    show (if (s.estep + 1) % 256 ≥ 16 then _ else
      (if s.estep ≠ 0 then
        if s.eseg ≠ 0 then
          if s.reg 13 = 10 ∨ s.reg 13 = 12 then (s.evol + 1) % 256
          else if s.reg 13 = 8 ∨ s.reg 13 = 14 then (s.evol + 255) % 256
          else s.evol
        else
          if s.reg 13 &&& 0x04 ≠ 0 then (s.evol + 1) % 256 else (s.evol + 255) % 256
      else s.evol)) = _
    rw [hvol]
    unfold evol_at
    simp only [hB]
    generalize s.reg 13 = shape at *
    generalize s.estep = e at *
    generalize s.eseg = seg at *
    have h11 : (1 : Nat) ^^^ 1 = 0 := rfl
    by_cases hb : shape = 8 ∨ shape = 10 ∨ shape = 12 ∨ shape = 14 <;>
      by_cases hc : (e + 1) % 256 ≥ 16 <;>
      interval_cases seg <;>
      simp only [hb, hc, h11, Nat.zero_xor, if_true, if_false, ite_self, ne_eq, one_ne_zero,
        not_false_eq_true, not_true_eq_false] <;>
      split_ifs <;> omega

/-- A chip cycle keeps the envelope fields in step with the shape. -/
theorem clock_env_wf (s : psg_t) (h : env_wf s) : env_wf (clock s) := by
  obtain ⟨f1, -, -, f4, f5, f6⟩ := tone_noise_frame s
  have ht : env_wf (clock_noise (([0, 1, 2] : List (Fin 3)).foldl clock_tone s)) := by
    unfold env_wf; rw [f1, f4, f5, f6]; exact h
  unfold clock clock_envelope
  generalize clock_noise (([0, 1, 2] : List (Fin 3)).foldl clock_tone s) = t at ht ⊢
  split
  · exact envelope_rollover_env_wf _ ht
  · exact ht

theorem wr_derive_shape (s : psg_t) (v : Nat) (h : s.rlatch = 13) :
    wr_derive s v = vecx_psg_env_reset { s with ecounter := 0, eseg := 0 } := by
  unfold wr_derive
  split <;> first | rfl | (exfalso; omega) | (exfalso; simp_all)

/-- A register write keeps the envelope fields in step with the shape, and a write
to register 13 puts them in step whatever they were. -/
theorem wr_env_wf (s : psg_t) (v : Nat) (h : s.rlatch < 16)
    (hw : s.rlatch = 13 ∨ env_wf s) :
    env_wf (wr_derive (store_reg s ⟨s.rlatch, h⟩ v) v) := by
  by_cases h13 : s.rlatch = 13
  · have he : (⟨s.rlatch, h⟩ : Fin 16) = 13 := Fin.ext h13
    rw [he]
    have hd := wr_derive_shape (store_reg s 13 v) v h13
    have hr : (store_reg s 13 v).reg 13 = v &&& 15 := by
      show Function.update s.reg 13 (v &&& dcmask 13) 13 = v &&& 15
      rw [Function.update_same]; rfl
    rw [hd]
    refine ⟨?_, ?_, ?_, ?_⟩
    · rw [(vecx_psg_env_reset_frame _).1]
      show (store_reg s 13 v).reg 13 ≤ 15
      rw [hr]; exact Nat.and_le_right
    · rw [(vecx_psg_env_reset_frame _).2.2.2.2.2.2.1]
      exact Nat.zero_le 1
    · rw [(vecx_psg_env_reset_frame _).2.2.2.2.2.2.2.1]
      exact Nat.zero_le 15
    · rw [vecx_psg_env_reset_evol, (vecx_psg_env_reset_frame _).1,
        (vecx_psg_env_reset_frame _).2.2.2.2.2.2.1, (vecx_psg_env_reset_frame _).2.2.2.2.2.2.2.1]
      simp [evol_at]
  · have hwf : env_wf s := hw.resolve_left h13
    obtain ⟨e1, e2, e3, -⟩ := wr_derive_env (store_reg s ⟨s.rlatch, h⟩ v) v h13
    obtain ⟨g1, g2, g3, g4⟩ := hwf
    have hr : (store_reg s ⟨s.rlatch, h⟩ v).reg 13 = s.reg 13 :=
      store_reg_other s _ 13 v (fun hh => h13 hh.symm)
    unfold env_wf
    rw [wr_derive_reg, hr, e1, e2, e3]
    exact ⟨g1, g2, g3, g4⟩

/-- C18: once register 13 has been written (any `v`, from any state), after every
later sequence of calls of `vecx_psg_set_reg` (index 0..15), `vecx_psg_wr`,
`vecx_psg_io_wr` and `vecx_psg_exec` the envelope volume `evol` is in 0..15, the
step `estep` is in 0..15 and the segment `eseg` is 0 or 1. -/
theorem C18_envelope_well_formed (c : ctx) (v : Nat) :
    ∃ s1, vecx_psg_wr (vecx_psg_set_reg c.psg 13) v = some s1 ∧
      ∀ (ops : List Op) (c1 : ctx), (∀ op ∈ ops, op.ok = true) →
        run ops { c with psg := s1 } = some c1 →
        c1.psg.evol ≤ 15 ∧ c1.psg.estep ≤ 15 ∧ (c1.psg.eseg = 0 ∨ c1.psg.eseg = 1) := by
  have hl : (vecx_psg_set_reg c.psg 13).rlatch < 16 := show 13 < 16 by decide
  refine ⟨_, vecx_psg_wr_eq _ _ hl, ?_⟩
  intro ops c1 hok hrun
  have h0 := wr_env_wf (vecx_psg_set_reg c.psg 13) v hl (Or.inl rfl)
  have h := run_invariant env_wf ?_ ?_ ?_ ?_ ops _ c1 hok hrun h0
  · obtain ⟨g1, g2, g3, g4⟩ := h
    refine ⟨?_, g3, by omega⟩
    rw [g4]
    unfold evol_at
    split_ifs <;> omega
  · intro s r h; exact h
  · intro s w hl2 _ h; exact wr_env_wf s w hl2 (Or.inr h)
  · intro s w _ h
    obtain ⟨g1, g2, g3, g4⟩ := h
    have hr := vecx_psg_io_wr_reg_other s w 13 (by decide)
    unfold env_wf
    rw [hr]
    exact ⟨g1, g2, g3, g4⟩
  · intro s h; exact clock_env_wf s h

/-- C17 (the code at the failing input): after `vecx_psg_init`, select 8 / write
0x10 (envelope mode for channel A), select 7 / write 0x3f (tone and noise disabled,
so the gate is open) and one `vecx_psg_exec`, the next `vecx_psg_exec` mixes channel
A with `emode[0] = 1` and `evol = 255`: the lookup `vtable[255]` is outside the
16-entry table and the call has no defined result. -/
theorem C17_vtable_index_255 :
    (run [Op.set_reg 8, Op.wr 0x10, Op.set_reg 7, Op.wr 0x3f, Op.exec]
        ⟨vecx_psg_init psg_static, some fun _ => 0, 0⟩).map
      (fun c =>
        ((((clock c.psg).tdisable 0 ||| (clock c.psg).sign 0) &&&
            ((clock c.psg).ndisable 0 ||| ((clock c.psg).nshift &&& 0x01))) % 256,
         (clock c.psg).emode 0, (clock c.psg).evol, vtable[(clock c.psg).evol]?,
         (vecx_psg_exec c).isSome)) = some (1, 1, 255, none, false) ∧
    run [Op.set_reg 8, Op.wr 0x10, Op.set_reg 7, Op.wr 0x3f, Op.exec, Op.exec]
      ⟨vecx_psg_init psg_static, some fun _ => 0, 0⟩ = none := by
  constructor
  · decide
  · have h : (run [Op.set_reg 8, Op.wr 0x10, Op.set_reg 7, Op.wr 0x3f, Op.exec, Op.exec]
        ⟨vecx_psg_init psg_static, some fun _ => 0, 0⟩).isSome = false := by decide
    exact Option.not_isSome_iff_eq_none.mp (by simp [h])

/-! ## Mixer -/

theorem mix_channel_eq (s : psg_t) (vol : Int) (i : Fin 3) :
    mix_channel s vol i =
      if chan_out s i ≠ 0 then (vtable[chan_index s i]?).map fun x => int16 (vol + x)
      else some vol := rfl

theorem mix_eq (s : psg_t) :
    mix s = (mix_channel s 0 0).bind fun v0 =>
      (mix_channel s v0 1).bind fun v1 => mix_channel s v1 2 := by
  simp [mix, List.foldlM]

/-- An in-range lookup in the volume table. -/
theorem vtable_lookup (idx : Nat) (h : idx ≤ 15) :
    vtable[idx]? = some (vtable.getD idx 0) ∧ 0 ≤ vtable.getD idx 0 ∧
      vtable.getD idx 0 ≤ 4096 := by
  interval_cases idx <;> decide

/-- A successful lookup in the volume table. -/
theorem vtable_lookup_some (idx : Nat) (x : Int) (h : vtable[idx]? = some x) :
    idx ≤ 15 ∧ 0 ≤ x ∧ x ≤ 4096 := by
  have hlt : idx < 16 := by
    by_contra hc
    have : vtable[idx]? = none := List.getElem?_eq_none (by simp [vtable]; omega)
    rw [this] at h; exact absurd h (by simp)
  obtain ⟨h1, h2, h3⟩ := vtable_lookup idx (by omega)
  rw [h1] at h
  have hx := Option.some.inj h
  exact ⟨by omega, hx ▸ h2, hx ▸ h3⟩

theorem int16_eq (x : Int) (h0 : 0 ≤ x) (h1 : x ≤ 32767) : int16 x = x := by
  unfold int16; omega

/-- The level channel `i` adds to the sample: its table entry when the gate is open. -/
theorem mix_channel_ok (s : psg_t) (vol : Int) (i : Fin 3) (h0 : 0 ≤ vol) (h1 : vol ≤ 8192)
    (hidx : chan_index s i ≤ 15) :
    mix_channel s vol i =
      some (vol + if chan_out s i ≠ 0 then vtable.getD (chan_index s i) 0 else 0) ∧
    0 ≤ (if chan_out s i ≠ 0 then vtable.getD (chan_index s i) 0 else 0) ∧
    (if chan_out s i ≠ 0 then vtable.getD (chan_index s i) 0 else 0) ≤ 4096 := by
  obtain ⟨l1, l2, l3⟩ := vtable_lookup (chan_index s i) hidx
  rw [mix_channel_eq]
  by_cases hg : chan_out s i ≠ 0
  · rw [if_pos hg, if_pos hg, l1]
    refine ⟨?_, l2, l3⟩
    rw [Option.map_some', int16_eq _ (by omega) (by omega)]
  · rw [if_neg hg, if_neg hg]
    exact ⟨by rw [Int.add_zero], Int.le_refl 0, by decide⟩

/-- Whenever channel `i` is mixed, the running sum grows by at most 4096. -/
theorem mix_channel_bound (s : psg_t) (vol v1 : Int) (i : Fin 3) (h0 : 0 ≤ vol)
    (h1 : vol ≤ 8192) (h : mix_channel s vol i = some v1) : vol ≤ v1 ∧ v1 ≤ vol + 4096 := by
  rw [mix_channel_eq] at h
  by_cases hg : chan_out s i ≠ 0
  · rw [if_pos hg] at h
    cases hl : vtable[chan_index s i]? with
    | none => rw [hl] at h; exact absurd h (by simp)
    | some x =>
      rw [hl, Option.map_some'] at h
      obtain ⟨-, x0, x1⟩ := vtable_lookup_some _ x hl
      rw [int16_eq _ (by omega) (by omega)] at h
      have := Option.some.inj h
      omega
  · rw [if_neg hg] at h
    have := Option.some.inj h
    omega

/-- Every sample the mixer produces is between 0 and 12288. -/
theorem mix_bound (s : psg_t) (v : Int) (h : mix s = some v) : 0 ≤ v ∧ v ≤ 12288 := by
  rw [mix_eq] at h
  simp only [Option.bind_eq_some] at h
  obtain ⟨v0, h0, v1, h1, h2⟩ := h
  have b0 := mix_channel_bound s 0 v0 0 (Int.le_refl 0) (by decide) h0
  have b1 := mix_channel_bound s v0 v1 1 (by omega) (by omega) h1
  have b2 := mix_channel_bound s v1 v 2 (by omega) (by omega) h2
  omega

/-- With every table index in range the mixer returns the sum of the levels of the
channels whose gate is open. -/
theorem mix_sum (s : psg_t) (hidx : ∀ i, chan_index s i ≤ 15) :
    mix s = some (Finset.univ.sum fun i : Fin 3 =>
      if chan_out s i ≠ 0 then vtable.getD (chan_index s i) 0 else 0) := by
  obtain ⟨a1, a2, a3⟩ := mix_channel_ok s 0 0 (Int.le_refl 0) (by decide) (hidx 0)
  obtain ⟨b1, b2, b3⟩ := mix_channel_ok s
    (0 + if chan_out s 0 ≠ 0 then vtable.getD (chan_index s 0) 0 else 0) 1
    (by omega) (by omega) (hidx 1)
  obtain ⟨c1, c2, c3⟩ := mix_channel_ok s
    (0 + (if chan_out s 0 ≠ 0 then vtable.getD (chan_index s 0) 0 else 0) +
      if chan_out s 1 ≠ 0 then vtable.getD (chan_index s 1) 0 else 0) 2
    (by omega) (by omega) (hidx 2)
  rw [mix_eq, a1, Option.some_bind, b1, Option.some_bind, c1, Fin.sum_univ_three, Int.zero_add]

theorem chan_out_open (s : psg_t) (i : Fin 3) (ht : s.tdisable i = 1) (hn : s.ndisable i = 1) :
    chan_out s i ≠ 0 := by
  unfold chan_out
  rw [ht, hn]
  have h : ((1 ||| s.sign i) &&& (1 ||| (s.nshift &&& 0x01))) % 2 = 1 := by
    simp [Nat.and_mod_two_eq_one, Nat.or_mod_two_eq_one]
  omega

/-- The result of `vecx_psg_exec` when the mixer returns `v`. -/
theorem vecx_psg_exec_eq (c : ctx) (b : Nat → Int) (v : Int) (hbuf : c.psgbuf = some b)
    (hmix : mix (clock c.psg) = some v) :
    vecx_psg_exec c =
      some (⟨clock c.psg, some (Function.update b c.bufpos v), c.bufpos + 1⟩, 1) := by
  simp [vecx_psg_exec, hmix, hbuf]

/-- With amplitudes and the advanced envelope volume in 0..15 every table index of
the mixing loop is in range. -/
theorem chan_index_le (s : psg_t) (hamp : ∀ i, s.amplitude i ≤ 15)
    (hevol : (clock s).evol ≤ 15) : ∀ i, chan_index (clock s) i ≤ 15 := by
  intro i
  unfold chan_index
  rw [(clock_frame s).2.2.2.2.2.1]
  split
  · exact hevol
  · exact hamp i

/-- With an output buffer installed, amplitudes in 0..15 and the envelope volume in
0..15 after the envelope advance of the call, `vecx_psg_exec` returns 1, writes one
sample at the cursor and advances the cursor by 1; the sample is the sum over the
channels of `gate_i ? vtable[emode[i] ? evol : amplitude[i]] : 0`, read from the
state after the tone, noise and envelope advance. -/
theorem exec_sample_sum (c : ctx) (b : Nat → Int) (hbuf : c.psgbuf = some b)
    (hamp : ∀ i, c.psg.amplitude i ≤ 15) (hevol : (clock c.psg).evol ≤ 15) :
    vecx_psg_exec c =
      some (⟨clock c.psg,
        some (Function.update b c.bufpos (Finset.univ.sum fun i : Fin 3 =>
          if chan_out (clock c.psg) i ≠ 0 then vtable.getD (chan_index (clock c.psg) i) 0
          else 0)),
        c.bufpos + 1⟩, 1) ∧
    vtable = [0, 40, 60, 86, 124, 186, 264, 440, 518, 840, 1196, 1526, 2016, 2602, 3300, 4096] ∧
    (∀ i, chan_out (clock c.psg) i =
      (((clock c.psg).tdisable i ||| (clock c.psg).sign i) &&&
        ((clock c.psg).ndisable i ||| ((clock c.psg).nshift &&& 1))) % 256) ∧
    (∀ i, chan_index (clock c.psg) i =
      if (clock c.psg).emode i ≠ 0 then (clock c.psg).evol else (clock c.psg).amplitude i) ∧
    (∀ i, c.psg.tdisable i = 1 → c.psg.ndisable i = 1 → chan_out (clock c.psg) i ≠ 0) := by
  refine ⟨vecx_psg_exec_eq c b _ hbuf (mix_sum _ (chan_index_le c.psg hamp hevol)), rfl,
    fun _ => rfl, fun _ => rfl, ?_⟩
  intro i ht hn
  obtain ⟨g1, g2⟩ := clock_flags c.psg
  exact chan_out_open _ i (by rw [g1]; exact ht) (by rw [g2]; exact hn)

/-- C13 (the code at the failing input): after `vecx_psg_init`, select 8 / write
0x10, select 7 / write 0x3f and one `vecx_psg_exec`, the state has an output buffer
installed, every amplitude 0 and `evol = 0`, so amplitudes and envelope volume are
in 0..15.  The next `vecx_psg_exec` steps the envelope first (`estep = 1`, decay
shape 0, segment 0), which takes the 8-bit `evol` from 0 to 255, and then mixes
channel A with its gate open in envelope mode: it reads `vtable[255]` on the
16-entry table.  The call has no defined result: it does not return 1 with one
sample equal to the sum of table entries. -/
theorem C13_exec_undefined_after_init :
    ∃ c, run [Op.set_reg 8, Op.wr 0x10, Op.set_reg 7, Op.wr 0x3f, Op.exec]
        ⟨vecx_psg_init psg_static, some fun _ => 0, 0⟩ = some c ∧
      (∀ i, c.psg.amplitude i ≤ 15) ∧ c.psg.evol ≤ 15 ∧ c.psgbuf.isSome = true ∧
      c.psg.estep = 1 ∧ c.psg.eseg = 0 ∧ c.psg.reg 13 = 0 ∧
      (clock c.psg).evol = 255 ∧
      chan_out (clock c.psg) 0 = 1 ∧ (clock c.psg).emode 0 = 1 ∧
      chan_index (clock c.psg) 0 = 255 ∧ vtable.length = 16 ∧
      vecx_psg_exec c = none := by
  have h : (run [Op.set_reg 8, Op.wr 0x10, Op.set_reg 7, Op.wr 0x3f, Op.exec]
      ⟨vecx_psg_init psg_static, some fun _ => 0, 0⟩).map
      (fun c => decide ((∀ i, c.psg.amplitude i ≤ 15) ∧ c.psg.evol = 0 ∧
        c.psgbuf.isSome = true ∧ c.psg.estep = 1 ∧ c.psg.eseg = 0 ∧ c.psg.reg 13 = 0 ∧
        (clock c.psg).evol = 255 ∧ chan_out (clock c.psg) 0 = 1 ∧
        (clock c.psg).emode 0 = 1 ∧ chan_index (clock c.psg) 0 = 255 ∧
        (vecx_psg_exec c).isSome = false)) = some true := by decide
  obtain ⟨c, hc, hf⟩ := Option.map_eq_some'.mp h
  obtain ⟨h1, h2, h3, h4, h5, h6, h7, h8, h9, h10, h11⟩ := of_decide_eq_true hf
  refine ⟨c, hc, h1, by omega, h3, h4, h5, h6, h7, h8, h9, h10, rfl, ?_⟩
  exact Option.not_isSome_iff_eq_none.mp (by simp [h11])

/-- With an output buffer installed, amplitudes in 0..15 and the envelope volume in
0..15 after the envelope advance of the call, `vecx_psg_exec` produces a sample
between 0 and 12288 (3 x 4096); and whenever `vecx_psg_exec` produces a sample at
all, the sample is in that range. -/
theorem exec_sample_range (c : ctx) (b : Nat → Int) (hbuf : c.psgbuf = some b)
    (hamp : ∀ i, c.psg.amplitude i ≤ 15) (hevol : (clock c.psg).evol ≤ 15) :
    (∃ v, mix (clock c.psg) = some v ∧
      vecx_psg_exec c =
        some (⟨clock c.psg, some (Function.update b c.bufpos v), c.bufpos + 1⟩, 1) ∧
      0 ≤ v ∧ v ≤ 12288) ∧
    ∀ (c0 c1 : ctx) (n : Nat), vecx_psg_exec c0 = some (c1, n) →
      ∃ buf, c1.psgbuf = some buf ∧ 0 ≤ buf c0.bufpos ∧ buf c0.bufpos ≤ 12288 := by
  constructor
  · have hm := mix_sum _ (chan_index_le c.psg hamp hevol)
    exact ⟨_, hm, vecx_psg_exec_eq c b _ hbuf hm, mix_bound _ _ hm⟩
  · intro c0 c1 n he
    unfold vecx_psg_exec at he
    simp only at he
    split at he
    · rename_i vol buf hv hb
      simp only [Option.some.injEq, Prod.mk.injEq] at he
      refine ⟨Function.update buf c0.bufpos vol, by rw [← he.1], ?_⟩
      rw [Function.update_same]
      exact mix_bound _ _ hv
    · exact absurd he (by simp)

/-- C19 (the code at the failing input): after `vecx_psg_init`, select 8 / write
0x10, select 7 / write 0x3f and one `vecx_psg_exec`, every amplitude and the envelope
volume are 0, in 0..15, and the first sample written is 0.  On the next
`vecx_psg_exec` the accumulator starts at 0 and channel A, the first channel mixed,
adds `vtable[evol]` with `evol = 255` after the envelope step: the table has no entry
255, so the mixer yields no sample and nothing bounds the value the call would store
at cursor position 1. -/
theorem C19_sample_undefined_after_init :
    ∃ c b, run [Op.set_reg 8, Op.wr 0x10, Op.set_reg 7, Op.wr 0x3f, Op.exec]
        ⟨vecx_psg_init psg_static, some fun _ => 0, 0⟩ = some c ∧
      (∀ i, c.psg.amplitude i ≤ 15) ∧ c.psg.evol ≤ 15 ∧
      c.psgbuf = some b ∧ b 0 = 0 ∧ c.bufpos = 1 ∧
      chan_out (clock c.psg) 0 ≠ 0 ∧ chan_index (clock c.psg) 0 = 255 ∧
      vtable[chan_index (clock c.psg) 0]? = none ∧
      mix_channel (clock c.psg) 0 0 = none ∧ mix (clock c.psg) = none ∧
      ¬ ∃ r, vecx_psg_exec c = some r := by
  have h : (run [Op.set_reg 8, Op.wr 0x10, Op.set_reg 7, Op.wr 0x3f, Op.exec]
      ⟨vecx_psg_init psg_static, some fun _ => 0, 0⟩).map
      (fun c => decide ((∀ i, c.psg.amplitude i ≤ 15) ∧ c.psg.evol = 0 ∧
        c.psgbuf.map (fun b => b 0) = some 0 ∧ c.bufpos = 1 ∧
        chan_out (clock c.psg) 0 = 1 ∧ chan_index (clock c.psg) 0 = 255 ∧
        (vtable[chan_index (clock c.psg) 0]?).isSome = false ∧
        (mix_channel (clock c.psg) 0 0).isSome = false ∧
        (mix (clock c.psg)).isSome = false ∧
        (vecx_psg_exec c).isSome = false)) = some true := by decide
  obtain ⟨c, hc, hf⟩ := Option.map_eq_some'.mp h
  obtain ⟨h1, h2, h3, h4, h5, h6, h7, h8, h9, h10⟩ := of_decide_eq_true hf
  obtain ⟨b, hb, hb0⟩ := Option.map_eq_some'.mp h3
  refine ⟨c, b, hc, h1, by omega, hb, hb0, h4, by omega, h6, ?_, ?_, ?_, ?_⟩
  · exact Option.not_isSome_iff_eq_none.mp (by simp [h7])
  · exact Option.not_isSome_iff_eq_none.mp (by simp [h8])
  · exact Option.not_isSome_iff_eq_none.mp (by simp [h9])
  · rintro ⟨r, hr⟩
    rw [hr] at h10
    exact absurd h10 (by simp)

/-! ## Envelope counter -/

/-- With an envelope period of 32768 or more the doubled period exceeds every value
of the 16-bit counter, so the rollover test of `vecx_psg_exec` never holds. -/
theorem envelope_due_large (s : psg_t) (h : 32768 ≤ s.eperiod) : envelope_due s = false := by
  have h1 : (s.ecounter + 1) % 65536 < 65536 := Nat.mod_lt _ (by decide)
  have h2 : s.eperiod <<< 1 = s.eperiod * 2 := by rw [Nat.shiftLeft_eq]
  unfold envelope_due
  rw [h2, decide_eq_false_iff_not]
  omega

/-- A chip cycle without an envelope rollover only advances the envelope counter. -/
theorem clock_not_due (s : psg_t) (h : envelope_due s = false) :
    (clock s).estep = s.estep ∧ (clock s).eseg = s.eseg ∧ (clock s).evol = s.evol ∧
    (clock s).ecounter = (s.ecounter + 1) % 65536 := by
  obtain ⟨-, f2, f3, f4, f5, f6⟩ := tone_noise_frame s
  have hdue : envelope_due (clock_noise (([0, 1, 2] : List (Fin 3)).foldl clock_tone s)) =
      false := by
    unfold envelope_due at h ⊢; rw [f2, f3]; exact h
  unfold clock clock_envelope
  generalize clock_noise (([0, 1, 2] : List (Fin 3)).foldl clock_tone s) = t at hdue f3 f4 f5 f6 ⊢
  rw [hdue]
  simp only [Bool.false_eq_true, if_false]
  exact ⟨f5, f4, f6, by rw [f3]⟩

theorem iterate_clock_large_period (n : Nat) (s : psg_t) (h : 32768 ≤ s.eperiod) :
    (clock^[n] s).eperiod = s.eperiod ∧ (clock^[n] s).estep = s.estep ∧
    (clock^[n] s).eseg = s.eseg ∧ (clock^[n] s).evol = s.evol ∧
    envelope_due (clock^[n] s) = false := by
  induction n with
  | zero => exact ⟨rfl, rfl, rfl, rfl, envelope_due_large s h⟩
  | succ n ih =>
    obtain ⟨h1, h2, h3, h4, h5⟩ := ih
    rw [Function.iterate_succ_apply']
    obtain ⟨g1, g2, g3, -⟩ := clock_not_due _ h5
    have hp : (clock (clock^[n] s)).eperiod = s.eperiod := by
      rw [(clock_frame _).2.2.2.2.1]; exact h1
    exact ⟨hp, g1.trans h2, g2.trans h3, g3.trans h4,
      envelope_due_large _ (by rw [hp]; exact h)⟩

theorem rollovers_large_period (n : Nat) (c : ctx) (h : 32768 ≤ c.psg.eperiod) :
    rollovers (List.replicate n Op.exec) c = 0 := by
  induction n generalizing c with
  | zero => rfl
  | succ n ih =>
    rw [List.replicate_succ]
    unfold rollovers
    cases hs : step c Op.exec with
    | none => rfl
    | some c1 =>
      simp only
      have hp : c1.psg = clock c.psg := by
        rcases step_psg c c1 Op.exec hs with ⟨r, hr, -⟩ | ⟨v, -, hr, -⟩ | ⟨v, hr, -⟩ | ⟨-, h2⟩
        · exact absurd hr (by simp)
        · exact absurd hr (by simp)
        · exact absurd hr (by simp)
        · exact h2
      have h1 : 32768 ≤ c1.psg.eperiod := by
        rw [hp, (clock_frame _).2.2.2.2.1]; exact h
      rw [ih c1 h1, envelope_due_large c.psg h]
      simp

/-- C11 (the code at the failing input): after `vecx_psg_init`, select 12 / write
0x80 (envelope period `P = 32768`), select 13 / write 0 (`ecounter = 0`), the
envelope counter never rolls over: for every `n`, after `n` chip cycles the rollover
test of the next call is false and the envelope step is still 0, and `n` calls of
`vecx_psg_exec` count 0 rollovers, although `max(1, 2*P) = 65536`. -/
theorem C11_period_32768_never_rolls_over (n : Nat) :
    ∃ c, run [Op.set_reg 12, Op.wr 0x80, Op.set_reg 13, Op.wr 0]
        ⟨vecx_psg_init psg_static, some fun _ => 0, 0⟩ = some c ∧
      c.psg.eperiod = 32768 ∧ c.psg.ecounter = 0 ∧ c.psg.estep = 0 ∧
      envelope_due (clock^[n] c.psg) = false ∧ (clock^[n] c.psg).estep = 0 ∧
      rollovers (List.replicate n Op.exec) c = 0 := by
  refine ⟨_, rfl, by decide, by decide, by decide, ?_, ?_, ?_⟩
  · exact (iterate_clock_large_period n _ (by decide)).2.2.2.2
  · rw [(iterate_clock_large_period n _ (by decide)).2.1]; decide
  · exact rollovers_large_period n _ (by decide)

theorem envelope_rollover_ecounter (s : psg_t) : (envelope_rollover s).ecounter = 0 := by
  obtain ⟨-, -, -, -, -, h6, -⟩ := envelope_volume_frame { s with ecounter := 0 }
  unfold envelope_rollover
  simp only
  split
  · rw [(vecx_psg_env_reset_frame _).2.2.2.2.2.1]
    split <;> exact h6
  · exact h6

/-- The envelope counter after one chip cycle. -/
theorem clock_ecounter (s : psg_t) :
    (clock s).ecounter = if envelope_due s = true then 0 else (s.ecounter + 1) % 65536 := by
  obtain ⟨-, f2, f3, -⟩ := tone_noise_frame s
  have hdue : envelope_due (clock_noise (([0, 1, 2] : List (Fin 3)).foldl clock_tone s)) =
      envelope_due s := by
    unfold envelope_due; rw [f2, f3]
  unfold clock clock_envelope
  generalize clock_noise (([0, 1, 2] : List (Fin 3)).foldl clock_tone s) = t at hdue f3 ⊢
  rw [hdue]
  by_cases hd : envelope_due s = true
  · rw [if_pos hd, if_pos hd]; exact envelope_rollover_ecounter _
  · rw [if_neg hd, if_neg hd]
    show (t.ecounter + 1) % 65536 = _
    rw [f3]

/-- For an envelope period `P` in 1..32767 and `ecounter = 0`, after `n` chip cycles
the counter is `n mod 2P`, and the next call rolls over exactly when it is the
`2P`-th since the last rollover. -/
theorem iterate_clock_ecounter (n : Nat) (s : psg_t) (P : Nat) (hP1 : 1 ≤ P)
    (hP2 : P ≤ 32767) (hper : s.eperiod = P) (hc : s.ecounter = 0) :
    (clock^[n] s).eperiod = P ∧ (clock^[n] s).ecounter = n % (2 * P) ∧
    (envelope_due (clock^[n] s) = true ↔ n % (2 * P) + 1 = 2 * P) := by
  have hdue : ∀ t : psg_t, t.eperiod = P → t.ecounter < 2 * P →
      (envelope_due t = true ↔ t.ecounter + 1 = 2 * P) := by
    intro t h1 h2
    have h3 : t.eperiod <<< 1 = 2 * P := by rw [Nat.shiftLeft_eq, h1]; omega
    unfold envelope_due
    rw [h3, decide_eq_true_iff, Nat.mod_eq_of_lt (by omega)]
    omega
  induction n with
  | zero =>
    have h0 : (clock^[0] s).ecounter = 0 % (2 * P) := by simpa using hc
    refine ⟨hper, h0, ?_⟩
    show envelope_due s = true ↔ _
    rw [hdue s hper (by omega), hc, Nat.zero_mod]
  | succ n ih =>
    obtain ⟨h1, h2, h3⟩ := ih
    rw [Function.iterate_succ_apply']
    have hlt : n % (2 * P) < 2 * P := Nat.mod_lt n (by omega)
    obtain ⟨d1, d2⟩ := succ_div_mod n (2 * P) (by omega)
    have hp : (clock (clock^[n] s)).eperiod = P := by
      rw [(clock_frame _).2.2.2.2.1]; exact h1
    have he : (clock (clock^[n] s)).ecounter = (n + 1) % (2 * P) := by
      rw [clock_ecounter]
      by_cases hd : envelope_due (clock^[n] s) = true
      · rw [if_pos hd]
        exact ((d1 (by have := h3.1 hd; omega)).1).symm
      · rw [if_neg hd, h2, Nat.mod_eq_of_lt (by omega)]
        have hne : ¬ 2 * P ≤ n % (2 * P) + 1 := by
          intro hc2
          exact hd (h3.2 (by omega))
        exact ((d2 hne).1).symm
    refine ⟨hp, he, ?_⟩
    rw [hdue _ hp (by rw [he]; exact Nat.mod_lt _ (by omega)), he]

end VecxPsg
